import Mathlib

/-!
# evebox: the `pgimport` driver loop and the following reader

Part I embeds the loop of `Main` in `cmd/pgimport/pgimport.go` (source lines 78-131).
The collaborators of the loop (the reader, the indexer, the bookmarker, the clock) are
not part of that file; each loop iteration is therefore run against a `Tick`, the record
of what those collaborators answer during the iteration, and everything the loop does to
them is written to a trace of `Op`s.

Part II models the following reader of package `evereader`, whose implementation is not
among the sources (only its test file is), from the written specification; where the
specification and the test file disagree on the reader, the test file is followed.
-/

namespace PgImport

/-! ## Part I: the import loop -/

/-- Modulus of Go's `uint64` arithmetic (`count`, `lastStatCount`, `eofs`). -/
def u64 : Nat := 2 ^ 64

/-- The `error` values `reader.Next()` can hand to `Main`. `Main` only distinguishes
`io.EOF` from everything else. -/
inductive ReadErr where
  | EOF
  | MalformedEvent
  | Other
  deriving DecidableEq, Repr

/-- The pair `event, err` returned by `reader.Next()`; `none` is Go's `nil`. -/
structure NextResult (ε : Type) where
  event : Option ε
  err : Option ReadErr
  deriving DecidableEq, Repr

/-- What the collaborators of `Main` answer during one loop iteration. -/
structure Tick (ε β : Type) where
  /-- the result of `reader.Next()` (line 87) -/
  next : NextResult ε
  /-- whether `indexer.AddEvent(event)` (line 98) reports a failure; line 98 is an
  expression statement, so whatever the call returns is discarded -/
  addFails : Bool
  /-- the value of `bookmarker.GetBookmark()` (line 101), if it is called -/
  bookmark : β
  /-- the reading of `time.Now()` (line 106), in nanoseconds -/
  now : Int
  deriving DecidableEq, Repr

/-- The observable actions of the loop, in program order. -/
inductive Op (ε β : Type) where
  /-- a call of `reader.Next()` that returned `r` -/
  | Next (r : NextResult ε)
  /-- the call `log.Fatal(err)` -/
  | Fatal (e : ReadErr)
  /-- the call `indexer.AddEvent(e)`; `failed` records its discarded outcome -/
  | AddEvent (e : ε) (failed : Bool)
  /-- the call `bookmarker.GetBookmark()` -/
  | GetBookmark
  /-- the call `bookmarker.WriteBookmark(b)` -/
  | WriteBookmark (b : β)
  /-- the `log.Info` statistics line: `count`, `count-lastStatCount`, the duration
  `now.Sub(lastStatTs)` the floating-point rate is computed from, and `eofs` -/
  | Stats (total delta : Nat) (elapsed : Int) (eofs : Nat)
  /-- the call `indexer.Flush()` -/
  | Flush
  /-- the call `time.Sleep(ms * time.Millisecond)` -/
  | Sleep (ms : Nat)
  deriving DecidableEq, Repr

/-- The loop variables declared on lines 78-83. -/
structure Vars where
  count : Nat
  lastStatTs : Int
  lastStatCount : Nat
  eofs : Nat
  deriving DecidableEq, Repr

/-- How an iteration of the `for` loop ends. -/
inductive Ctl where
  /-- falls through to the next iteration -/
  | next
  /-- the `break` of line 122 -/
  | brk
  /-- the process was terminated by `log.Fatal` -/
  | exit1
  deriving DecidableEq, Repr

/-- Smallest value of Go's `time.Duration` (an `int64` of nanoseconds). -/
def minDuration : Int := -(2 ^ 63)

/-- Largest value of Go's `time.Duration`. -/
def maxDuration : Int := 2 ^ 63 - 1

/-- Go's `t.Sub(u)`: the difference in nanoseconds, saturated to the `Duration` range. -/
def Sub (t u : Int) : Int := max minDuration (min maxDuration (t - u))

/-- The test `d.Seconds() > 1` of line 108. `Seconds` converts the integer nanosecond
count `d` to `float64(d / 1e9) + float64(d % 1e9) / 1e9`; that value exceeds `1` exactly
when `d` exceeds one second, so the test is taken on the nanosecond count. -/
def secondsGtOne (d : Int) : Bool := decide (1000000000 < d)

/-- Go's `count++` on a `uint64`. -/
def incr (n : Nat) : Nat := (n + 1) % u64

/-- Go's `a - b` on `uint64` values. -/
def usub (a b : Nat) : Nat := (a + u64 - b) % u64

/-- Modelled from the spec: `log.Fatal` of the repository's `log` package, which is not
among the sources. Section 7 of the specification says that fatal errors terminate the
process (and `Main` itself relies on it: line 38 indexes `flagset.Args()` right after the
`log.Fatal` of line 34). The iteration ends at once, nothing after the call runs. -/
def logFatal {ε β : Type} (e : ReadErr) (s : Vars) (tr : List (Op ε β)) :
    Ctl × Vars × List (Op ε β) :=
  (Ctl.exit1, s, tr ++ [Op.Fatal e])

/-- Lines 97-104: the `if event != nil` block. -/
def eventPhase {ε β : Type} (useBookmark : Bool) (s : Vars) (t : Tick ε β) :
    Vars × List (Op ε β) :=
  match t.next.event with
  | some ev =>
    ({ s with count := incr s.count },
      Op.AddEvent ev t.addFails ::
        (if useBookmark then [Op.GetBookmark, Op.WriteBookmark t.bookmark] else []))
  | none => (s, [])

/-- Lines 106-118: read the clock and, when more than a second has gone by since
`lastStatTs`, log the statistics, reset the interval counters and flush. -/
def statsPhase {ε β : Type} (s : Vars) (now : Int) : Vars × List (Op ε β) :=
  if secondsGtOne (Sub now s.lastStatTs) then
    ({ s with lastStatTs := now, lastStatCount := s.count, eofs := 0 },
      [Op.Stats s.count (usub s.count s.lastStatCount) (Sub now s.lastStatTs) s.eofs,
        Op.Flush])
  else (s, [])

/-- Lines 120-127: the `if eof` block. -/
def eofPhase {ε β : Type} (oneshot eof : Bool) : Ctl × List (Op ε β) :=
  if eof then
    if oneshot then (Ctl.brk, [])
    else (Ctl.next, [Op.Flush, Op.Sleep 100])
  else (Ctl.next, [])

/-- Lines 106-127, run once the error check of lines 88-95 has set `eof` (and `eofs`). -/
def body {ε β : Type} (oneshot useBookmark : Bool) (eof : Bool) (s : Vars) (t : Tick ε β) :
    Ctl × Vars × List (Op ε β) :=
  let p2 := eventPhase useBookmark s t
  let p3 : Vars × List (Op ε β) := statsPhase p2.1 t.now
  let p4 : Ctl × List (Op ε β) := eofPhase oneshot eof
  (p4.1, p3.1, Op.Next t.next :: (p2.2 ++ p3.2 ++ p4.2))

/-- One iteration of the `for` loop of `Main` (lines 86-127). -/
def iteration {ε β : Type} (oneshot useBookmark : Bool) (s : Vars) (t : Tick ε β) :
    Ctl × Vars × List (Op ε β) :=
  match t.next.err with
  | some ReadErr.EOF => body oneshot useBookmark true { s with eofs := incr s.eofs } t
  | some e => logFatal e s [Op.Next t.next]
  | none => body oneshot useBookmark false s t

/-- How a run of `Main` over a finite list of ticks ends. -/
inductive Status where
  /-- every tick was used up and the loop is still going -/
  | running
  /-- the loop was left through `break` -/
  | exited
  /-- the process was terminated by `log.Fatal` -/
  | fatal
  deriving DecidableEq, Repr

/-- The `for` loop of lines 85-129, run over the answers of the collaborators. Ticks
that follow a `break` or a `log.Fatal` are never looked at. -/
def loop {ε β : Type} (oneshot useBookmark : Bool) :
    Vars → List (Tick ε β) → Status × Vars × List (Op ε β)
  | s, [] => (Status.running, s, [])
  | s, t :: ts =>
    match iteration oneshot useBookmark s t with
    | (Ctl.next, s1, tr) =>
      let r := loop oneshot useBookmark s1 ts
      (r.1, r.2.1, tr ++ r.2.2)
    | (Ctl.brk, s1, tr) => (Status.exited, s1, tr)
    | (Ctl.exit1, s1, tr) => (Status.fatal, s1, tr)

/-- The values of the loop variables when the loop is entered (lines 78-83); `start` is
the reading of `time.Now()` on line 79. -/
def initVars (start : Int) : Vars :=
  { count := 0, lastStatTs := start, lastStatCount := 0, eofs := 0 }

/-- Lines 78-131 of `Main`: the loop, and the final `indexer.Flush()` when the loop was
left through `break`. -/
def Main {ε β : Type} (oneshot useBookmark : Bool) (start : Int) (ticks : List (Tick ε β)) :
    Status × Vars × List (Op ε β) :=
  match loop oneshot useBookmark (initVars start) ticks with
  | (Status.exited, s, tr) => (Status.exited, s, tr ++ [Op.Flush])
  | r => r

/-- The events handed to `indexer.AddEvent`, in trace order. -/
def added {ε β : Type} : List (Op ε β) → List ε
  | [] => []
  | Op.AddEvent e _ :: tr => e :: added tr
  | _ :: tr => added tr

/-- The number of `reader.Next()` calls in a trace. -/
def nextCalls {ε β : Type} : List (Op ε β) → Nat
  | [] => 0
  | Op.Next _ :: tr => nextCalls tr + 1
  | _ :: tr => nextCalls tr

/-- The number of `indexer.Flush()` calls in a trace. -/
def flushes {ε β : Type} : List (Op ε β) → Nat
  | [] => 0
  | Op.Flush :: tr => flushes tr + 1
  | _ :: tr => flushes tr

/-- The number of statistics lines in a trace. -/
def statsLines {ε β : Type} : List (Op ε β) → Nat
  | [] => 0
  | Op.Stats _ _ _ _ :: tr => statsLines tr + 1
  | _ :: tr => statsLines tr

/-- The bookmarks written by `bookmarker.WriteBookmark`, in trace order. -/
def written {ε β : Type} : List (Op ε β) → List β
  | [] => []
  | Op.WriteBookmark b :: tr => b :: written tr
  | _ :: tr => written tr

/-- The number of `bookmarker.GetBookmark()` calls in a trace. -/
def bookmarkReads {ε β : Type} : List (Op ε β) → Nat
  | [] => 0
  | Op.GetBookmark :: tr => bookmarkReads tr + 1
  | _ :: tr => bookmarkReads tr

/-- The result `event, nil` of `reader.Next()`. -/
def NextResult.ofEvent {ε : Type} (e : ε) : NextResult ε := { event := some e, err := none }

/-- The result `nil, io.EOF` of `reader.Next()`: end of data. -/
def NextResult.endOfData {ε : Type} : NextResult ε :=
  { event := none, err := some ReadErr.EOF }

/-- The statistics contract in the words of the specification, as a check of a trace.
The trace is walked with `total`, the events added so far, and with `since` and `eofs`,
the events added and the ends of data returned since the previous statistics line; each
statistics line has to report exactly these three numbers and to be followed at once by
a flush, after which `since` and `eofs` start again from zero. -/
def statsOk {ε β : Type} : Nat → Nat → Nat → List (Op ε β) → Bool
  | _, _, _, [] => true
  | total, since, eofs, Op.AddEvent _ _ :: tr => statsOk (total + 1) (since + 1) eofs tr
  | total, since, eofs, Op.Next r :: tr =>
    statsOk total since (if r.err = some ReadErr.EOF then eofs + 1 else eofs) tr
  | total, since, eofs, Op.Stats t d _ e :: tr =>
    decide (t = total) && decide (d = since) && decide (e = eofs) &&
      (match tr with
        | Op.Flush :: _ => true
        | _ => false) &&
      statsOk total 0 0 tr
  | total, since, eofs, _ :: tr => statsOk total since eofs tr

/-- A tick whose `Next()` returns the event `e`, with a fixed bookmark and clock. -/
def eventTick (e : Nat) (addFails : Bool) (now : Int) : Tick Nat Nat :=
  { next := NextResult.ofEvent e, addFails := addFails, bookmark := 40 + e, now := now }

/-- A tick whose `Next()` returns `nil` and the error `err`. -/
def errTick (err : ReadErr) (now : Int) : Tick Nat Nat :=
  { next := { event := none, err := some err }, addFails := false, bookmark := 0, now := now }

end PgImport

/-! ## Part II: the following reader -/

namespace EveReader

/-- The line feed, the sole record separator of the log file. -/
def nl : Nat := 10

/-- The file system as the tests see it: one tracked path, and the contents of the
files by inode number (bytes as numbers). A file keeps its inode and contents when it is
renamed away from the path. -/
structure FS where
  /-- the inode the tracked path is bound to, if the path exists -/
  path : Option Nat
  /-- the contents of every file, by inode -/
  data : Nat → List Nat
  /-- the next inode number to hand out -/
  fresh : Nat

/-- Replace the contents of the file with inode `i`. -/
def FS.setData (fs : FS) (i : Nat) (d : List Nat) : FS :=
  { fs with data := fun j => if j = i then d else fs.data j }

/-- The test helper `NewFileWriter` (`os.Create`): truncate the file at the path, or
create a new file there when the path does not exist. Returns the inode written to. -/
def NewFileWriter (fs : FS) : FS × Nat :=
  match fs.path with
  | some i => (fs.setData i [], i)
  | none =>
    ({ path := some fs.fresh, data := fun j => if j = fs.fresh then [] else fs.data j,
       fresh := fs.fresh + 1 }, fs.fresh)

/-- The test helper `FileWriter.Write`: append bytes to the file the writer holds. -/
def Write (fs : FS) (w : Nat) (bytes : List Nat) : FS :=
  fs.setData w (fs.data w ++ bytes)

/-- The test helper `FileWriter.WriteLine`: the line, then a line feed. -/
def WriteLine (fs : FS) (w : Nat) (line : List Nat) : FS :=
  Write (Write fs w line) w [nl]

/-- The test helper `FileWriter.Truncate`: cut the file to zero length (and rewind). -/
def Truncate (fs : FS) (w : Nat) : FS :=
  fs.setData w []

/-- The call `os.Rename(filename, filename + ".1")` of the rename test: the path no
longer names a file; the renamed file keeps its inode and contents. -/
def Rename (fs : FS) : FS :=
  { fs with path := none }

/-- Modelled from the spec: the open epoch of the following reader (section 3), whose
implementation is missing from the sources. `inode` identifies the open handle,
`readOff` is the read offset of the handle (the number of bytes read through it), `buf`
holds the bytes read but not yet delivered, `line` is the line position. -/
structure Reader where
  inode : Nat
  readOff : Nat
  buf : List Nat
  line : Nat
  epoch : Nat
  openSize : Nat
  deriving DecidableEq, Repr

/-- Modelled from the spec: the result type of `next()`, missing from the sources;
section 4.2 gives it as one of event, end of data, malformed event, I/O error. -/
inductive Outcome (ε : Type) where
  | Event (e : ε)
  | EndOfData
  | MalformedEvent (line : List Nat)
  | IoError
  deriving DecidableEq, Repr

/-- Modelled from the spec: how `Main` sees an outcome of the missing `Next()`, as the
Go pair `event, err` (section 9; end of data is `nil, io.EOF`). -/
def Outcome.toResult {ε : Type} : Outcome ε → PgImport.NextResult ε
  | Outcome.Event e => { event := some e, err := none }
  | Outcome.EndOfData => { event := none, err := some PgImport.ReadErr.EOF }
  | Outcome.MalformedEvent _ => { event := none, err := some PgImport.ReadErr.MalformedEvent }
  | Outcome.IoError => { event := none, err := some PgImport.ReadErr.Other }

/-- Modelled from the spec: the buffer scan of the missing line splitter (section 4.1):
with the first line feed at position `k`, the bytes before it and the bytes after it. -/
def splitAtNl : List Nat → Option (List Nat × List Nat)
  | [] => none
  | c :: cs =>
    if c = nl then some ([], cs)
    else
      match splitAtNl cs with
      | some (l, r) => some (c :: l, r)
      | none => none

/-- Modelled from the spec: one read from the handle of the missing reader; it returns
the bytes behind the read offset, at most `chunk` of them, none at the end of the file. -/
def readChunk (chunk : Nat) (fs : FS) (rd : Reader) : List Nat :=
  ((fs.data rd.inode).drop rd.readOff).take chunk

/-- Modelled from the spec: the missing line splitter (section 4.1). A line feed in the
buffer yields the bytes before it and keeps the bytes after it; otherwise one read is
attempted: bytes are appended and the scan retried, no bytes is end of data with the
partial tail kept. `fuel` bounds the number of reads. -/
def nextLine (chunk : Nat) (fs : FS) : Nat → Reader → Option (List Nat) × Reader
  | fuel, rd =>
    match splitAtNl rd.buf with
    | some (l, rest) => (some l, { rd with buf := rest })
    | none =>
      match fuel with
      | 0 => (none, rd)
      | fuel + 1 =>
        if readChunk chunk fs rd = [] then (none, rd)
        else
          nextLine chunk fs fuel
            { rd with buf := rd.buf ++ readChunk chunk fs rd,
                      readOff := rd.readOff + (readChunk chunk fs rd).length }

/-- Modelled from the spec: `open(path)` of the missing reader (`NewFollowingReader`):
a freshly opened handle, epoch 1, line 0, empty buffer; fails when the path is absent. -/
def NewFollowingReader (fs : FS) : Option Reader :=
  match fs.path with
  | some i =>
    some { inode := i, readOff := 0, buf := [], line := 0, epoch := 1,
           openSize := (fs.data i).length }
  | none => none

/-- Modelled from the spec: the rotation and truncation check of the missing reader,
made when `next()` reaches the end of the data (section 4.2, cases 1 to 3): a path that
is not found keeps the handle; another inode at the path, or the same inode with a size
below the read offset, has the file at the path opened anew, with line 0, an empty
buffer and the epoch bumped; an unchanged file keeps the handle. The result is the newly
opened reader, or `none` when the handle is kept. -/
def checkRotation (fs : FS) (rd : Reader) : Option Reader :=
  match fs.path with
  | none => none
  | some i =>
    if i ≠ rd.inode ∨ (fs.data i).length < rd.readOff then
      some { inode := i, readOff := 0, buf := [], line := 0, epoch := rd.epoch + 1,
             openSize := (fs.data i).length }
    else none

/-- Modelled from the spec: what the missing `next()` makes of a complete line (section
4.2): the line is passed to the decoder, whose event is returned, or whose rejection is
returned as a malformed event. -/
def decodeLine {ε : Type} (decode : List Nat → Option ε) (l : List Nat) : Outcome ε :=
  match decode l with
  | some e => Outcome.Event e
  | none => Outcome.MalformedEvent l

/-- Modelled from the spec: one run of the line splitter for the missing `next()`, with
the result delivered as section 4.2 says: a complete line advances the line position and
is decoded, no complete line is end of data. The splitter gets one read more than there
are unread bytes. -/
def readNext {ε : Type} (decode : List Nat → Option ε) (chunk : Nat) (fs : FS) (rd : Reader) :
    Option (Outcome ε) × Reader :=
  match nextLine chunk fs ((fs.data rd.inode).length - rd.readOff + 1) rd with
  | (some l, rd1) => (some (decodeLine decode l), { rd1 with line := rd1.line + 1 })
  | (none, rd1) => (none, rd1)

/-- Modelled from the spec: `next()` of the missing following reader (section 4.2). A
complete line is delivered; at the end of the data the rotation check is made. With the
handle kept the call returns end of data. With the file opened anew, section 4.2 has
the call return end of data and leave the first line of the new file to the next call,
whereas `TestEveReaderFollowRename` (`followingreader_test.go`, lines 211-222) and the
Rename-recreate scenario of section 8 require the very call that finds the new file to
return its first line. The test is code of the repository and is followed here: after
opening the file anew the call reads from it, and returns end of data only when the new
file holds no complete line (as `TestEveReaderFollowTruncate` requires). -/
def Next {ε : Type} (decode : List Nat → Option ε) (chunk : Nat) (fs : FS) (rd : Reader) :
    Outcome ε × Reader :=
  match readNext decode chunk fs rd with
  | (some o, rd1) => (o, rd1)
  | (none, rd1) =>
    match checkRotation fs rd1 with
    | none => (Outcome.EndOfData, rd1)
    | some rd2 =>
      match readNext decode chunk fs rd2 with
      | (some o, rd3) => (o, rd3)
      | (none, rd3) => (Outcome.EndOfData, rd3)

/-- Modelled from the spec: `pos()` of the missing reader, the current line position. -/
def Pos (rd : Reader) : Nat := rd.line

/-- The bytes after the last line feed: the trailing partial line of a file. -/
def lastTail : List Nat → List Nat
  | [] => []
  | c :: cs =>
    match splitAtNl (c :: cs) with
    | some _ => lastTail cs
    | none => c :: cs

/-- Modelled from the spec: `skip_to_end()` of the missing reader (section 4.2): count
and discard the complete lines in the file, set the line position to the count, and keep
a trailing partial line in the buffer. -/
def SkipToEnd (fs : FS) (rd : Reader) : Reader :=
  { rd with line := (fs.data rd.inode).count nl,
            readOff := (fs.data rd.inode).length,
            buf := lastTail (fs.data rd.inode) }

/-- The bytes of the file behind the reader's handle that it has not read yet. -/
def unread (fs : FS) (rd : Reader) : List Nat :=
  (fs.data rd.inode).drop rd.readOff

/-- The bytes the reader has not delivered yet: its buffer, then the unread rest of the
file behind its handle. -/
def pending (fs : FS) (rd : Reader) : List Nat :=
  rd.buf ++ unread fs rd

/-- The reader's handle is the file at the tracked path, and that file has not shrunk
below the read offset: no rotation and no truncation is there to be detected. -/
def Intact (fs : FS) (rd : Reader) : Prop :=
  fs.path = some rd.inode ∧ rd.readOff ≤ (fs.data rd.inode).length

/-- The lines a reader has consumed took at least one byte each (the line feed): the
line position is at most the offset behind the last consumed line. -/
def Consumed (rd : Reader) : Prop :=
  rd.buf.length + rd.line ≤ rd.readOff

/-- Write several complete lines with the test helper `FileWriter.WriteLine`. -/
def WriteLines (fs : FS) (w : Nat) : List (List Nat) → FS
  | [] => fs
  | l :: ls => WriteLines (WriteLine fs w l) w ls

/-- A stand-in for the external decoder: it accepts the lines that open with a brace
(byte 123) and returns their length as the event. -/
def sampleDecode (l : List Nat) : Option Nat :=
  if l.head? = some 123 then some l.length else none

/-- A file system whose tracked path is the file with inode 0 and the given contents. -/
def sampleFS (content : List Nat) : FS :=
  { path := some 0, data := fun i => if i = 0 then content else [], fresh := 1 }

/-- A reader freshly opened on the file with inode 0. -/
def sampleReader : Reader :=
  { inode := 0, readOff := 0, buf := [], line := 0, epoch := 1, openSize := 0 }

/-- The file contents made of the given lines, each followed by a line feed. -/
def joinLines : List (List Nat) → List Nat
  | [] => []
  | l :: ls => l ++ nl :: joinLines ls

/-- Call `Next` `n` times against an unchanging file system, collecting the outcomes. -/
def nextN {ε : Type} (decode : List Nat → Option ε) (chunk : Nat) (fs : FS) :
    Nat → Reader → List (Outcome ε) × Reader
  | 0, rd => ([], rd)
  | n + 1, rd =>
    let r := Next decode chunk fs rd
    let rs := nextN decode chunk fs n r.2
    (r.1 :: rs.1, rs.2)

end EveReader

/-! ## Theorems about the import loop -/

namespace PgImport

variable {ε β : Type}

@[simp] theorem added_append (a b : List (Op ε β)) : added (a ++ b) = added a ++ added b := by
  induction a with
  | nil => rfl
  | cons x xs ih => cases x <;> simp [added, ih]

@[simp] theorem nextCalls_append (a b : List (Op ε β)) :
    nextCalls (a ++ b) = nextCalls a + nextCalls b := by
  induction a with
  | nil => simp [nextCalls]
  | cons x xs ih =>
    cases x <;> simp [nextCalls, ih]
    omega

@[simp] theorem flushes_append (a b : List (Op ε β)) :
    flushes (a ++ b) = flushes a + flushes b := by
  induction a with
  | nil => simp [flushes]
  | cons x xs ih =>
    cases x <;> simp [flushes, ih]
    omega

@[simp] theorem statsLines_append (a b : List (Op ε β)) :
    statsLines (a ++ b) = statsLines a + statsLines b := by
  induction a with
  | nil => simp [statsLines]
  | cons x xs ih =>
    cases x <;> simp [statsLines, ih]
    omega

@[simp] theorem written_append (a b : List (Op ε β)) :
    written (a ++ b) = written a ++ written b := by
  induction a with
  | nil => rfl
  | cons x xs ih => cases x <;> simp [written, ih]

@[simp] theorem bookmarkReads_append (a b : List (Op ε β)) :
    bookmarkReads (a ++ b) = bookmarkReads a + bookmarkReads b := by
  induction a with
  | nil => simp [bookmarkReads]
  | cons x xs ih =>
    cases x <;> simp [bookmarkReads, ih]
    omega

/-- The statistics block hands no event to the sink, calls the reader not at all and
touches no bookmark. -/
theorem statsPhase_quiet (s : Vars) (now : Int) :
    added (statsPhase s now : Vars × List (Op ε β)).2 = [] ∧
    nextCalls (statsPhase s now : Vars × List (Op ε β)).2 = 0 ∧
    written (statsPhase s now : Vars × List (Op ε β)).2 = [] ∧
    bookmarkReads (statsPhase s now : Vars × List (Op ε β)).2 = 0 ∧
    (statsPhase s now : Vars × List (Op ε β)).1.count = s.count := by
  unfold statsPhase
  split <;> simp [added, nextCalls, written, bookmarkReads]

/-- The `if eof` block hands no event to the sink, calls the reader not at all and
touches no bookmark. -/
theorem eofPhase_quiet (oneshot eof : Bool) :
    added (eofPhase oneshot eof : Ctl × List (Op ε β)).2 = [] ∧
    nextCalls (eofPhase oneshot eof : Ctl × List (Op ε β)).2 = 0 ∧
    written (eofPhase oneshot eof : Ctl × List (Op ε β)).2 = [] ∧
    bookmarkReads (eofPhase oneshot eof : Ctl × List (Op ε β)).2 = 0 := by
  unfold eofPhase
  cases oneshot <;> cases eof <;> simp [added, nextCalls, written, bookmarkReads]

/-- An iteration whose `Next()` returns an event and no error goes on to the next
iteration, having added exactly that event. -/
theorem iteration_ofEvent (oneshot useBookmark : Bool) (s : Vars) (t : Tick ε β) (e : ε)
    (h : t.next = NextResult.ofEvent e) :
    (iteration oneshot useBookmark s t).1 = Ctl.next ∧
    added (iteration oneshot useBookmark s t).2.2 = [e] ∧
    nextCalls (iteration oneshot useBookmark s t).2.2 = 1 := by
  have hq := statsPhase_quiet (ε := ε) (β := β) (eventPhase useBookmark s t).1 t.now
  simp only [iteration, h, NextResult.ofEvent, body, eofPhase] at hq ⊢
  simp only [eventPhase, h, NextResult.ofEvent] at hq ⊢
  cases useBookmark <;> simp [added, nextCalls, hq]

/-- An iteration of a oneshot run whose `Next()` returns `nil, io.EOF` leaves the loop,
having added nothing. -/
theorem iteration_endOfData_oneshot (useBookmark : Bool) (s : Vars) (t : Tick ε β)
    (h : t.next = NextResult.endOfData) :
    (iteration true useBookmark s t).1 = Ctl.brk ∧
    added (iteration true useBookmark s t).2.2 = [] ∧
    nextCalls (iteration true useBookmark s t).2.2 = 1 := by
  have hq := statsPhase_quiet (ε := ε) (β := β)
    (eventPhase useBookmark { s with eofs := incr s.eofs } t).1 t.now
  simp only [iteration, h, NextResult.endOfData, body, eofPhase] at hq ⊢
  simp only [eventPhase, h, NextResult.endOfData] at hq ⊢
  simp [added, nextCalls, hq]

/-- The loop of a oneshot run over `n` events and then end of data: it is left at that
end of data, having called `Next()` `n + 1` times and added the `n` events in order. -/
theorem loop_oneshot_events (useBookmark : Bool) (last : Tick ε β) (rest : List (Tick ε β))
    (hlast : last.next = NextResult.endOfData) :
    ∀ (evs : List (Tick ε β)) (es : List ε) (s : Vars),
      evs.map Tick.next = es.map NextResult.ofEvent →
      (loop true useBookmark s (evs ++ last :: rest)).1 = Status.exited ∧
      added (loop true useBookmark s (evs ++ last :: rest)).2.2 = es ∧
      nextCalls (loop true useBookmark s (evs ++ last :: rest)).2.2 = es.length + 1 := by
  intro evs
  induction evs with
  | nil =>
    intro es s hev
    have hes : es = [] := by
      cases es with
      | nil => rfl
      | cons a l => simp at hev
    subst hes
    have h := iteration_endOfData_oneshot useBookmark s last hlast
    rcases hi : iteration true useBookmark s last with ⟨c, s1, tr⟩
    rw [hi] at h
    simp only at h
    obtain ⟨hc, ha, hn⟩ := h
    subst hc
    simp [loop, hi, ha, hn]
  | cons t ts ih =>
    intro es s hev
    cases es with
    | nil => simp at hev
    | cons e es1 =>
      simp only [List.map_cons, List.cons.injEq] at hev
      have h := iteration_ofEvent true useBookmark s t e hev.1
      rcases hi : iteration true useBookmark s t with ⟨c, s1, tr⟩
      rw [hi] at h
      simp only at h
      obtain ⟨hc, ha, hn⟩ := h
      subst hc
      obtain ⟨h1, h2, h3⟩ := ih es1 s1 hev.2
      simp only [List.cons_append, loop, hi]
      refine ⟨h1, ?_, ?_⟩
      · simp [ha, h2]
      · simp [hn, h3]; omega

theorem incr_eq {n : Nat} (h : n + 1 < u64) : incr n = n + 1 := by
  unfold incr
  exact Nat.mod_eq_of_lt h

theorem usub_eq {a b : Nat} (hb : b ≤ a) (ha : a < u64) : usub a b = a - b := by
  unfold usub
  have h : a + u64 - b = (a - b) + u64 := by omega
  rw [h, Nat.add_mod_right]
  exact Nat.mod_eq_of_lt (by omega)

/-- C1: in oneshot mode, over `n` events followed by end of data (`nil, io.EOF`), the loop
of `Main` is left at that first end of data (after `n + 1` calls of `Next()`, whatever
the reader would have answered later), the events handed to `AddEvent` are exactly
`e1..en`, each once and in that order, and the last operation of the run is `Flush`. -/
theorem oneshot_delivers_then_flushes (useBookmark : Bool) (start : Int) (es : List ε)
    (evs : List (Tick ε β)) (last : Tick ε β) (rest : List (Tick ε β))
    (hev : evs.map Tick.next = es.map NextResult.ofEvent)
    (hlast : last.next = NextResult.endOfData) :
    (Main true useBookmark start (evs ++ last :: rest)).1 = Status.exited ∧
    nextCalls (Main true useBookmark start (evs ++ last :: rest)).2.2 = es.length + 1 ∧
    added (Main true useBookmark start (evs ++ last :: rest)).2.2 = es ∧
    (Main true useBookmark start (evs ++ last :: rest)).2.2.getLast? = some Op.Flush := by
  obtain ⟨h1, h2, h3⟩ :=
    loop_oneshot_events useBookmark last rest hlast evs es (initVars start) hev
  rcases hl : loop true useBookmark (initVars start) (evs ++ last :: rest) with ⟨st, s1, tr⟩
  rw [hl] at h1 h2 h3
  simp only at h1 h2 h3
  subst h1
  simp [Main, hl, h2, h3, added, nextCalls]

/-- Witness for C1: two events, end of data, and a tick that is never reached. -/
theorem oneshot_delivers_then_flushes_witness :
    ([eventTick 1 false 5, eventTick 2 false 2000000000].map Tick.next
        = [1, 2].map NextResult.ofEvent ∧
      (errTick ReadErr.EOF 2000000001).next = NextResult.endOfData) ∧
    ((Main true true 0 ([eventTick 1 false 5, eventTick 2 false 2000000000] ++
        errTick ReadErr.EOF 2000000001 :: [eventTick 3 false 2000000002])).1 = Status.exited ∧
      nextCalls (Main true true 0 ([eventTick 1 false 5, eventTick 2 false 2000000000] ++
        errTick ReadErr.EOF 2000000001 :: [eventTick 3 false 2000000002])).2.2 = [1, 2].length + 1 ∧
      added (Main true true 0 ([eventTick 1 false 5, eventTick 2 false 2000000000] ++
        errTick ReadErr.EOF 2000000001 :: [eventTick 3 false 2000000002])).2.2 = [1, 2] ∧
      (Main true true 0 ([eventTick 1 false 5, eventTick 2 false 2000000000] ++
        errTick ReadErr.EOF 2000000001 :: [eventTick 3 false 2000000002])).2.2.getLast?
          = some Op.Flush) :=
  ⟨⟨by decide, by decide⟩,
    oneshot_delivers_then_flushes true 0 [1, 2]
      [eventTick 1 false 5, eventTick 2 false 2000000000] (errTick ReadErr.EOF 2000000001)
      [eventTick 3 false 2000000002] (by decide) (by decide)⟩

/-- C2, as stated, fails: after a `Next()` that returns a malformed-event error the run
is over (`log.Fatal`), and the event a later `Next()` would return is never added. -/
theorem malformed_event_ends_run :
    (Main false false 0 [errTick ReadErr.MalformedEvent 1, eventTick 7 false 2]).1
        = Status.fatal ∧
      added (Main false false 0
        [errTick ReadErr.MalformedEvent 1, eventTick 7 false 2]).2.2 = [] ∧
      nextCalls (Main false false 0
        [errTick ReadErr.MalformedEvent 1, eventTick 7 false 2]).2.2 = 1 := by
  decide

/-- C2, amended: when `Next()` returns an error other than `io.EOF` (a malformed event
among them), the loop ends there through `log.Fatal`: the loop variables are left as
they were (nothing is counted), and the trace ends with that `Next()` and the fatal log
call, so no later `Next()`, `AddEvent` or `Flush` happens. -/
theorem non_eof_error_is_fatal (oneshot useBookmark : Bool) (s : Vars) (t : Tick ε β)
    (rest : List (Tick ε β)) (e : ReadErr)
    (herr : t.next.err = some e) (hne : e ≠ ReadErr.EOF) :
    loop oneshot useBookmark s (t :: rest)
      = (Status.fatal, s, [Op.Next t.next, Op.Fatal e]) := by
  cases e with
  | EOF => exact absurd rfl hne
  | MalformedEvent => simp [loop, iteration, herr, logFatal]
  | Other => simp [loop, iteration, herr, logFatal]

/-- Witness for the amended C2. -/
theorem non_eof_error_is_fatal_witness :
    ((errTick ReadErr.MalformedEvent 1).next.err = some ReadErr.MalformedEvent ∧
      ReadErr.MalformedEvent ≠ ReadErr.EOF) ∧
    loop true true (initVars 0) (errTick ReadErr.MalformedEvent 1 :: [eventTick 7 false 2])
      = (Status.fatal, initVars 0,
          [Op.Next (errTick ReadErr.MalformedEvent 1).next, Op.Fatal ReadErr.MalformedEvent]) :=
  ⟨⟨by decide, by decide⟩,
    non_eof_error_is_fatal true true (initVars 0) (errTick ReadErr.MalformedEvent 1)
      [eventTick 7 false 2] ReadErr.MalformedEvent (by decide) (by decide)⟩

/-- C8: in an iteration in which `Next()` returns a non-nil event (with no error, or with
`io.EOF`, so that the iteration is not cut short by `log.Fatal`), `count` goes up by
exactly 1 and that event is added once; with bookmarking enabled the trace continues
`AddEvent`, `GetBookmark`, `WriteBookmark b` with `b` the bookmark that `GetBookmark`
returned, and that is the only bookmark read and the only one written; with bookmarking
disabled no bookmark is read or written. In an iteration with a nil event, whatever the
error, `count` is unchanged and no `AddEvent`, `GetBookmark` or `WriteBookmark` occurs. -/
theorem event_iteration_effects (oneshot useBookmark : Bool) (s : Vars) (t : Tick ε β)
    (hcount : s.count + 1 < u64) :
    (∀ ev, t.next.event = some ev →
      (t.next.err = none ∨ t.next.err = some ReadErr.EOF) →
      (iteration oneshot useBookmark s t).2.1.count = s.count + 1 ∧
      added (iteration oneshot useBookmark s t).2.2 = [ev] ∧
      (useBookmark = true →
        (∃ post, (iteration oneshot useBookmark s t).2.2 =
            Op.Next t.next :: Op.AddEvent ev t.addFails :: Op.GetBookmark ::
              Op.WriteBookmark t.bookmark :: post) ∧
          bookmarkReads (iteration oneshot useBookmark s t).2.2 = 1 ∧
          written (iteration oneshot useBookmark s t).2.2 = [t.bookmark]) ∧
      (useBookmark = false →
        bookmarkReads (iteration oneshot useBookmark s t).2.2 = 0 ∧
          written (iteration oneshot useBookmark s t).2.2 = [])) ∧
    (t.next.event = none →
      (iteration oneshot useBookmark s t).2.1.count = s.count ∧
      added (iteration oneshot useBookmark s t).2.2 = [] ∧
      bookmarkReads (iteration oneshot useBookmark s t).2.2 = 0 ∧
      written (iteration oneshot useBookmark s t).2.2 = []) := by
  have hi := incr_eq hcount
  constructor
  · intro ev hev herr
    rcases herr with herr | herr
    · have hq := statsPhase_quiet (ε := ε) (β := β) (eventPhase useBookmark s t).1 t.now
      have hp := eofPhase_quiet (ε := ε) (β := β) oneshot false
      simp only [iteration, herr, body]
      simp only [eventPhase, hev, hi] at hq ⊢
      cases useBookmark <;>
        simp [added, written, bookmarkReads, hq, hp]
    · have hq := statsPhase_quiet (ε := ε) (β := β)
        (eventPhase useBookmark { s with eofs := incr s.eofs } t).1 t.now
      have hp := eofPhase_quiet (ε := ε) (β := β) oneshot true
      simp only [iteration, herr, body]
      simp only [eventPhase, hev, hi] at hq ⊢
      cases useBookmark <;>
        simp [added, written, bookmarkReads, hq, hp]
  · intro hev
    rcases herr : t.next.err with _ | e
    · have hq := statsPhase_quiet (ε := ε) (β := β) (eventPhase useBookmark s t).1 t.now
      have hp := eofPhase_quiet (ε := ε) (β := β) oneshot false
      simp only [iteration, herr, body]
      simp only [eventPhase, hev] at hq ⊢
      simp [added, written, bookmarkReads, hq, hp]
    · cases e with
      | EOF =>
        have hq := statsPhase_quiet (ε := ε) (β := β)
          (eventPhase useBookmark { s with eofs := incr s.eofs } t).1 t.now
        have hp := eofPhase_quiet (ε := ε) (β := β) oneshot true
        simp only [iteration, herr, body]
        simp only [eventPhase, hev] at hq ⊢
        simp [added, written, bookmarkReads, hq, hp]
      | MalformedEvent => simp [iteration, herr, logFatal, added, written, bookmarkReads]
      | Other => simp [iteration, herr, logFatal, added, written, bookmarkReads]

/-- Witness for C8: the first iteration of a run with bookmarking, on an event. -/
theorem event_iteration_effects_witness :
    ((initVars 0).count + 1 < u64 ∧
      ((eventTick 5 false 3).next.err = none ∨
        (eventTick 5 false 3).next.err = some ReadErr.EOF)) ∧
    (iteration false true (initVars 0) (eventTick 5 false 3)).2.1.count = (initVars 0).count + 1 ∧
    added (iteration false true (initVars 0) (eventTick 5 false 3)).2.2 = [5] :=
  ⟨⟨by decide, Or.inl (by decide)⟩,
    ((event_iteration_effects false true (initVars 0) (eventTick 5 false 3) (by decide)).1
      5 (by decide) (Or.inl (by decide))).1,
    ((event_iteration_effects false true (initVars 0) (eventTick 5 false 3) (by decide)).1
      5 (by decide) (Or.inl (by decide))).2.1⟩

/-- C9, as stated, fails: with bookmarking enabled, an iteration whose `AddEvent` fails
still counts the event and still writes the bookmark read after it. -/
theorem failed_add_still_bookmarked :
    (iteration false true (initVars 0) (eventTick 5 true 3)).2.2 =
        [Op.Next (NextResult.ofEvent 5), Op.AddEvent 5 true, Op.GetBookmark,
          Op.WriteBookmark 45] ∧
      (iteration false true (initVars 0) (eventTick 5 true 3)).2.1.count = 1 := by
  decide

/-- C9, amended: `Main` does not look at the outcome of `indexer.AddEvent`. In an iteration
with bookmarking enabled whose `AddEvent` fails, `count` is still incremented and the
trace still continues with `GetBookmark` and a `WriteBookmark` of the bookmark read. -/
theorem failed_add_is_ignored (oneshot : Bool) (s : Vars) (t : Tick ε β) (ev : ε)
    (hfail : t.addFails = true) (hev : t.next.event = some ev)
    (herr : t.next.err = none ∨ t.next.err = some ReadErr.EOF) :
    (iteration oneshot true s t).2.1.count = incr s.count ∧
    written (iteration oneshot true s t).2.2 = [t.bookmark] ∧
    ∃ post, (iteration oneshot true s t).2.2 =
      Op.Next t.next :: Op.AddEvent ev true :: Op.GetBookmark ::
        Op.WriteBookmark t.bookmark :: post := by
  rcases herr with herr | herr
  · have hq := statsPhase_quiet (ε := ε) (β := β) (eventPhase true s t).1 t.now
    have hp := eofPhase_quiet (ε := ε) (β := β) oneshot false
    simp only [iteration, herr, body]
    simp only [eventPhase, hev, hfail] at hq ⊢
    simp [written, hq, hp]
  · have hq := statsPhase_quiet (ε := ε) (β := β)
      (eventPhase true { s with eofs := incr s.eofs } t).1 t.now
    have hp := eofPhase_quiet (ε := ε) (β := β) oneshot true
    simp only [iteration, herr, body]
    simp only [eventPhase, hev, hfail] at hq ⊢
    simp [written, hq, hp]

/-- Witness for the amended C9. -/
theorem failed_add_is_ignored_witness :
    ((eventTick 5 true 3).addFails = true ∧ (eventTick 5 true 3).next.event = some 5 ∧
      ((eventTick 5 true 3).next.err = none ∨
        (eventTick 5 true 3).next.err = some ReadErr.EOF)) ∧
    (iteration true true (initVars 0) (eventTick 5 true 3)).2.1.count
      = incr (initVars 0).count ∧
    written (iteration true true (initVars 0) (eventTick 5 true 3)).2.2
      = [(eventTick 5 true 3).bookmark] :=
  ⟨⟨by decide, by decide, Or.inl (by decide)⟩,
    (failed_add_is_ignored true (initVars 0) (eventTick 5 true 3) 5 (by decide) (by decide)
      (Or.inl (by decide))).1,
    (failed_add_is_ignored true (initVars 0) (eventTick 5 true 3) 5 (by decide) (by decide)
      (Or.inl (by decide))).2.1⟩

/-- One iteration against the statistics contract: checking the iteration's trace from
the loop variables before it comes to checking what follows from the loop variables
after it. The counters grow by at most one and the iteration flushes at least as often
as it logs statistics. -/
theorem iteration_monitor (oneshot useBookmark : Bool) (s : Vars) (t : Tick ε β)
    (rest : List (Op ε β))
    (hle : s.lastStatCount ≤ s.count) (hc : s.count + 1 < u64) (he : s.eofs + 1 < u64) :
    statsOk s.count (s.count - s.lastStatCount) s.eofs
        ((iteration oneshot useBookmark s t).2.2 ++ rest)
      = statsOk (iteration oneshot useBookmark s t).2.1.count
          ((iteration oneshot useBookmark s t).2.1.count
            - (iteration oneshot useBookmark s t).2.1.lastStatCount)
          (iteration oneshot useBookmark s t).2.1.eofs rest ∧
    (iteration oneshot useBookmark s t).2.1.lastStatCount
      ≤ (iteration oneshot useBookmark s t).2.1.count ∧
    (iteration oneshot useBookmark s t).2.1.count ≤ s.count + 1 ∧
    (iteration oneshot useBookmark s t).2.1.eofs ≤ s.eofs + 1 ∧
    statsLines (iteration oneshot useBookmark s t).2.2
      ≤ flushes (iteration oneshot useBookmark s t).2.2 := by
  have hi := incr_eq hc
  have hj := incr_eq he
  have hu1 : usub s.count s.lastStatCount = s.count - s.lastStatCount :=
    usub_eq hle (by omega)
  have hu2 : usub (s.count + 1) s.lastStatCount = s.count + 1 - s.lastStatCount :=
    usub_eq (by omega) hc
  have ha : s.count + 1 - s.lastStatCount = s.count - s.lastStatCount + 1 := by omega
  obtain ⟨⟨event, err⟩, addFails, bookmark, now⟩ := t
  by_cases hsec : secondsGtOne (Sub now s.lastStatTs) = true
  · rcases err with _ | _ | _ | _ <;> rcases event with _ | ev <;>
      cases useBookmark <;> cases oneshot <;>
      simp [iteration, body, eventPhase, statsPhase, eofPhase, logFatal, statsOk, statsLines,
        flushes, hsec, hi, hj, hu1, hu2, ha, hle]
  · rcases err with _ | _ | _ | _ <;> rcases event with _ | ev <;>
      cases useBookmark <;> cases oneshot <;>
      simp [iteration, body, eventPhase, statsPhase, eofPhase, logFatal, statsOk, statsLines,
        flushes, hsec, hi, hj, hu1, hu2, ha, hle] <;>
      omega

/-- The loop against the statistics contract, from any loop variables with
`lastStatCount ≤ count` and over fewer ticks than the counters have room for. -/
theorem loop_monitor (oneshot useBookmark : Bool) (extra : List (Op ε β))
    (hextra : ∀ a b c, statsOk a b c extra = true) :
    ∀ (ticks : List (Tick ε β)) (s : Vars),
      s.lastStatCount ≤ s.count → s.count + ticks.length < u64 →
      s.eofs + ticks.length < u64 →
      statsOk s.count (s.count - s.lastStatCount) s.eofs
          ((loop oneshot useBookmark s ticks).2.2 ++ extra) = true ∧
      (loop oneshot useBookmark s ticks).2.1.lastStatCount
        ≤ (loop oneshot useBookmark s ticks).2.1.count ∧
      statsLines (loop oneshot useBookmark s ticks).2.2
        ≤ flushes (loop oneshot useBookmark s ticks).2.2 := by
  intro ticks
  induction ticks with
  | nil =>
    intro s hle _ _
    simp [loop, hextra, hle, statsLines, flushes]
  | cons t ts ih =>
    intro s hle hc he
    simp only [List.length_cons] at hc he
    have hm1 := iteration_monitor oneshot useBookmark s t
      ((loop oneshot useBookmark (iteration oneshot useBookmark s t).2.1 ts).2.2 ++ extra)
      hle (by omega) (by omega)
    have hm2 := iteration_monitor oneshot useBookmark s t extra hle (by omega) (by omega)
    rcases hi : iteration oneshot useBookmark s t with ⟨c, s1, tr⟩
    rw [hi] at hm1 hm2
    simp only at hm1 hm2
    obtain ⟨h1, h2, h3, h4, h5⟩ := hm1
    cases c with
    | next =>
      obtain ⟨i1, i2, i3⟩ := ih s1 h2 (by omega) (by omega)
      simp only [loop, hi, List.append_assoc]
      refine ⟨?_, i2, ?_⟩
      · rw [h1]; exact i1
      · simp only [statsLines_append, flushes_append]; omega
    | brk =>
      simp only [loop, hi]
      exact ⟨by rw [hm2.1]; exact hextra _ _ _, h2, h5⟩
    | exit1 =>
      simp only [loop, hi]
      exact ⟨by rw [hm2.1]; exact hextra _ _ _, h2, h5⟩

/-- An iteration that reads the clock more than a second after `lastStatTs`: its trace
is the `Next()` call and the event block, then the statistics line with the counters as
they stand, then `Flush`, then the `if eof` block; the interval counters are reset. -/
theorem iteration_emits (oneshot useBookmark : Bool) (s : Vars) (t : Tick ε β)
    (herr : t.next.err = none ∨ t.next.err = some ReadErr.EOF)
    (hsec : secondsGtOne (Sub t.now s.lastStatTs) = true) :
    (iteration oneshot useBookmark s t).2.2 =
      (Op.Next t.next :: (eventPhase useBookmark s t).2) ++
        Op.Stats (iteration oneshot useBookmark s t).2.1.count
            (usub (iteration oneshot useBookmark s t).2.1.count s.lastStatCount)
            (Sub t.now s.lastStatTs)
            (if t.next.err = some ReadErr.EOF then incr s.eofs else s.eofs)
          :: Op.Flush ::
            (eofPhase oneshot (decide (t.next.err = some ReadErr.EOF)) :
              Ctl × List (Op ε β)).2 ∧
    (iteration oneshot useBookmark s t).2.1.lastStatCount
      = (iteration oneshot useBookmark s t).2.1.count ∧
    (iteration oneshot useBookmark s t).2.1.eofs = 0 ∧
    (iteration oneshot useBookmark s t).2.1.lastStatTs = t.now := by
  obtain ⟨⟨event, err⟩, addFails, bookmark, now⟩ := t
  simp only at herr hsec
  rcases herr with herr | herr <;> subst herr <;> rcases event with _ | ev <;>
    simp [iteration, body, eventPhase, statsPhase, hsec]

/-- C10: with the clock an input, over any run of fewer than 2^64 iterations. Every
statistics line in the trace reports as total the number of events added so far, as
delta the number added since the previous statistics line and as EOF figure the number of
end-of-data results since then, and is followed at once by a flush (`statsOk`);
`lastStatCount ≤ count` holds for the loop variables the run ends with (a run over a
shorter list of ticks ends in each earlier state); the flushes are at least as many as
the statistics lines. And in every iteration that reads the clock more than a second
after `lastStatTs`, the line is emitted with `count`, `count - lastStatCount` and `eofs`
as they stand, directly followed by `Flush`, and the iteration ends with
`lastStatCount = count`, `eofs = 0` and `lastStatTs` the clock reading. -/
theorem stats_line_and_flush_cadence (oneshot useBookmark : Bool) (start : Int)
    (ticks : List (Tick ε β)) (hlen : ticks.length < u64) :
    statsOk 0 0 0 (Main oneshot useBookmark start ticks).2.2 = true ∧
    (Main oneshot useBookmark start ticks).2.1.lastStatCount
      ≤ (Main oneshot useBookmark start ticks).2.1.count ∧
    statsLines (Main oneshot useBookmark start ticks).2.2
      ≤ flushes (Main oneshot useBookmark start ticks).2.2 ∧
    ∀ (s : Vars) (t : Tick ε β),
      (t.next.err = none ∨ t.next.err = some ReadErr.EOF) →
      secondsGtOne (Sub t.now s.lastStatTs) = true →
      (∃ pre post, (iteration oneshot useBookmark s t).2.2 =
        pre ++ Op.Stats (iteration oneshot useBookmark s t).2.1.count
            (usub (iteration oneshot useBookmark s t).2.1.count s.lastStatCount)
            (Sub t.now s.lastStatTs)
            (if t.next.err = some ReadErr.EOF then incr s.eofs else s.eofs)
          :: Op.Flush :: post) ∧
      (iteration oneshot useBookmark s t).2.1.lastStatCount
        = (iteration oneshot useBookmark s t).2.1.count ∧
      (iteration oneshot useBookmark s t).2.1.eofs = 0 ∧
      (iteration oneshot useBookmark s t).2.1.lastStatTs = t.now := by
  have hF : ∀ a b c, statsOk a b c ([Op.Flush] : List (Op ε β)) = true := by
    intro a b c; simp [statsOk]
  have hN : ∀ a b c, statsOk a b c ([] : List (Op ε β)) = true := by
    intro a b c; simp [statsOk]
  have hlF := loop_monitor oneshot useBookmark [Op.Flush] hF ticks (initVars start)
    (by simp [initVars]) (by simpa [initVars] using hlen) (by simpa [initVars] using hlen)
  have hlN := loop_monitor oneshot useBookmark [] hN ticks (initVars start)
    (by simp [initVars]) (by simpa [initVars] using hlen) (by simpa [initVars] using hlen)
  refine ⟨?_, ?_, ?_, ?_⟩
  · rcases hl : loop oneshot useBookmark (initVars start) ticks with ⟨st, s1, tr⟩
    rw [hl] at hlF hlN
    cases st <;> simp_all [Main, initVars]
  · rcases hl : loop oneshot useBookmark (initVars start) ticks with ⟨st, s1, tr⟩
    rw [hl] at hlF hlN
    cases st <;> simp_all [Main, initVars]
  · rcases hl : loop oneshot useBookmark (initVars start) ticks with ⟨st, s1, tr⟩
    rw [hl] at hlF hlN
    cases st <;> simp_all [Main, initVars, flushes, statsLines]
    omega
  · intro s t herr hsec
    obtain ⟨h1, h2, h3, h4⟩ := iteration_emits oneshot useBookmark s t herr hsec
    exact ⟨⟨_, _, h1⟩, h2, h3, h4⟩

/-- Witness for C10: a run of two events and an end of data, the second event arriving
two seconds after the start. -/
theorem stats_line_and_flush_cadence_witness :
    [eventTick 1 false 5, eventTick 2 false 2000000000, errTick ReadErr.EOF 2000000001].length
        < u64 ∧
    statsOk 0 0 0 (Main false false 0
      [eventTick 1 false 5, eventTick 2 false 2000000000,
        errTick ReadErr.EOF 2000000001]).2.2 = true ∧
    statsLines (Main false false 0
      [eventTick 1 false 5, eventTick 2 false 2000000000,
        errTick ReadErr.EOF 2000000001]).2.2
      ≤ flushes (Main false false 0
        [eventTick 1 false 5, eventTick 2 false 2000000000,
          errTick ReadErr.EOF 2000000001]).2.2 :=
  ⟨by decide,
    (stats_line_and_flush_cadence false false 0
      [eventTick 1 false 5, eventTick 2 false 2000000000, errTick ReadErr.EOF 2000000001]
      (by decide)).1,
    (stats_line_and_flush_cadence false false 0
      [eventTick 1 false 5, eventTick 2 false 2000000000, errTick ReadErr.EOF 2000000001]
      (by decide)).2.2.1⟩

end PgImport

/-! ## Theorems about the following reader -/

namespace EveReader

variable {ε : Type}

theorem splitAtNl_line (l r : List Nat) (h : nl ∉ l) : splitAtNl (l ++ nl :: r) = some (l, r) := by
  induction l with
  | nil => simp [splitAtNl]
  | cons c cs ih =>
    simp only [List.mem_cons, not_or] at h
    have hc : c ≠ nl := fun e => h.1 e.symm
    simp [splitAtNl, hc, ih h.2]

theorem splitAtNl_none (a : List Nat) (h : nl ∉ a) : splitAtNl a = none := by
  induction a with
  | nil => rfl
  | cons c cs ih =>
    simp only [List.mem_cons, not_or] at h
    have hc : c ≠ nl := fun e => h.1 e.symm
    simp [splitAtNl, hc, ih h.2]

theorem splitAtNl_some_elim : ∀ (a l r : List Nat),
    splitAtNl a = some (l, r) → a = l ++ nl :: r ∧ nl ∉ l := by
  intro a
  induction a with
  | nil => intro l r h; simp [splitAtNl] at h
  | cons c cs ih =>
    intro l r h
    by_cases hc : c = nl
    · simp [splitAtNl, hc] at h
      obtain ⟨h1, h2⟩ := h
      subst h1 h2 hc
      simp
    · simp only [splitAtNl, hc, if_false] at h
      rcases hs : splitAtNl cs with _ | ⟨l1, r1⟩
      · simp [hs] at h
      · simp only [hs, Option.some.injEq, Prod.mk.injEq] at h
        obtain ⟨h1, h2⟩ := h
        obtain ⟨i1, i2⟩ := ih l1 r1 hs
        subst h1 h2
        refine ⟨by simp [i1], ?_⟩
        simp only [List.mem_cons, not_or]
        exact ⟨fun e => hc e.symm, i2⟩

theorem splitAtNl_none_elim : ∀ (a : List Nat), splitAtNl a = none → nl ∉ a := by
  intro a
  induction a with
  | nil => intro _; simp
  | cons c cs ih =>
    intro h
    by_cases hc : c = nl
    · simp [splitAtNl, hc] at h
    · simp only [splitAtNl, hc, if_false] at h
      rcases hs : splitAtNl cs with _ | ⟨l1, r1⟩
      · simp only [List.mem_cons, not_or]
        exact ⟨fun e => hc e.symm, ih hs⟩
      · simp [hs] at h

/-- The first line of a byte sequence is unique. -/
theorem first_line_unique (l l1 r r1 : List Nat) (h : nl ∉ l) (h1 : nl ∉ l1)
    (he : l ++ nl :: r = l1 ++ nl :: r1) : l = l1 ∧ r = r1 := by
  have a := splitAtNl_line l r h
  have b := splitAtNl_line l1 r1 h1
  rw [he, b] at a
  simp only [Option.some.injEq, Prod.mk.injEq] at a
  exact ⟨a.1.symm, a.2.symm⟩

theorem take_append_drop_length (c : Nat) (u : List Nat) :
    List.take c u ++ List.drop (List.take c u).length u = u := by
  rcases Nat.le_total c u.length with h | h
  · rw [List.length_take, Nat.min_eq_left h, List.take_append_drop]
  · rw [List.take_of_length_le h, List.drop_length, List.append_nil]

theorem readChunk_eq_nil (chunk : Nat) (hchunk : 0 < chunk) (fs : FS) (rd : Reader)
    (h : readChunk chunk fs rd = []) : unread fs rd = [] := by
  unfold readChunk at h
  unfold unread
  rcases hu : List.drop rd.readOff (fs.data rd.inode) with _ | ⟨c, cs⟩
  · rfl
  · rw [hu] at h
    cases chunk with
    | zero => omega
    | succ n => simp at h

theorem readChunk_length_le (chunk : Nat) (fs : FS) (rd : Reader) :
    (readChunk chunk fs rd).length ≤ (unread fs rd).length := by
  unfold readChunk unread
  rw [List.length_take]
  exact Nat.min_le_right _ _

theorem unread_after_read (chunk : Nat) (fs : FS) (rd : Reader) :
    unread fs { rd with buf := rd.buf ++ readChunk chunk fs rd,
                        readOff := rd.readOff + (readChunk chunk fs rd).length }
      = List.drop (readChunk chunk fs rd).length (unread fs rd) := by
  unfold unread
  simp only [List.drop_drop]

theorem pending_after_read (chunk : Nat) (fs : FS) (rd : Reader) :
    pending fs { rd with buf := rd.buf ++ readChunk chunk fs rd,
                         readOff := rd.readOff + (readChunk chunk fs rd).length }
      = pending fs rd := by
  unfold pending
  rw [unread_after_read]
  simp only [List.append_assoc]
  congr 1
  exact take_append_drop_length chunk (unread fs rd)

theorem unread_length (fs : FS) (rd : Reader) :
    (unread fs rd).length = (fs.data rd.inode).length - rd.readOff := by
  unfold unread
  exact List.length_drop _ _

/-- The line splitter on pending bytes that hold a complete line: it yields that line
and keeps the rest pending, on the same handle, and the offset of the consumed bytes
moves past the line and its line feed. -/
theorem nextLine_some (chunk : Nat) (hchunk : 0 < chunk) (fs : FS) (l rest : List Nat)
    (hl : nl ∉ l) :
    ∀ (fuel : Nat) (rd : Reader), (unread fs rd).length < fuel →
      pending fs rd = l ++ nl :: rest →
      ∃ rd1, nextLine chunk fs fuel rd = (some l, rd1) ∧ pending fs rd1 = rest ∧
        rd1.inode = rd.inode ∧ rd1.line = rd.line ∧ rd1.epoch = rd.epoch ∧
        rd1.openSize = rd.openSize ∧
        (rd.readOff ≤ (fs.data rd.inode).length → rd1.readOff ≤ (fs.data rd.inode).length) ∧
        rd1.readOff + rd.buf.length = rd.readOff + rd1.buf.length + l.length + 1 := by
  intro fuel
  induction fuel with
  | zero => intro rd h; omega
  | succ n ih =>
    intro rd hfuel hpend
    rcases hs : splitAtNl rd.buf with _ | ⟨l0, rest0⟩
    · -- no line feed in the buffer: one read
      by_cases hd : readChunk chunk fs rd = []
      · have hu := readChunk_eq_nil chunk hchunk fs rd hd
        have hno := splitAtNl_none_elim _ hs
        unfold pending at hpend
        rw [hu, List.append_nil] at hpend
        rw [hpend] at hno
        simp at hno
      · have hlen : 0 < (readChunk chunk fs rd).length := List.length_pos.mpr hd
        have hle := readChunk_length_le chunk fs rd
        obtain ⟨rd1, h1, h2, h3, h4, h5, h6, h7, h8⟩ :=
          ih { rd with buf := rd.buf ++ readChunk chunk fs rd,
                       readOff := rd.readOff + (readChunk chunk fs rd).length }
            (by rw [unread_after_read, List.length_drop]; omega)
            (by rw [pending_after_read]; exact hpend)
        refine ⟨rd1, ?_, h2, h3, h4, h5, h6, ?_, ?_⟩
        · rw [nextLine, hs]
          simp only [hd, if_false]
          exact h1
        · intro hsz
          apply h7
          have := unread_length fs rd
          simp only
          omega
        · simp only [List.length_append] at h8
          omega
    · -- a line feed in the buffer
      obtain ⟨hb, hl0⟩ := splitAtNl_some_elim _ _ _ hs
      unfold pending at hpend
      rw [hb, List.append_assoc, List.cons_append] at hpend
      obtain ⟨e1, e2⟩ := first_line_unique _ _ _ _ hl0 hl hpend
      subst e1
      refine ⟨{ rd with buf := rest0 }, ?_, ?_, rfl, rfl, rfl, rfl, fun h => h, ?_⟩
      · rw [nextLine, hs]
      · unfold pending unread
        exact e2
      · rw [hb]
        simp only [List.length_append, List.length_cons]
        omega

/-- The line splitter on pending bytes without a line feed: it reads to the end of the
file, keeps everything read in the buffer, and reports end of data. -/
theorem nextLine_none (chunk : Nat) (hchunk : 0 < chunk) (fs : FS) :
    ∀ (fuel : Nat) (rd : Reader), (unread fs rd).length < fuel →
      nl ∉ pending fs rd →
      nextLine chunk fs fuel rd =
        (none, { rd with buf := pending fs rd,
                         readOff := rd.readOff + (unread fs rd).length }) := by
  intro fuel
  induction fuel with
  | zero => intro rd h; omega
  | succ n ih =>
    intro rd hfuel hpend
    have hbuf : nl ∉ rd.buf := by
      intro h
      exact hpend (by unfold pending; exact List.mem_append_left _ h)
    have hs := splitAtNl_none _ hbuf
    by_cases hd : readChunk chunk fs rd = []
    · have hu := readChunk_eq_nil chunk hchunk fs rd hd
      rw [nextLine, hs]
      simp only [hd, if_true]
      unfold pending
      rw [hu]
      simp
    · have hlen : 0 < (readChunk chunk fs rd).length := List.length_pos.mpr hd
      have hle := readChunk_length_le chunk fs rd
      have h := ih { rd with buf := rd.buf ++ readChunk chunk fs rd,
                             readOff := rd.readOff + (readChunk chunk fs rd).length }
        (by rw [unread_after_read, List.length_drop]; omega)
        (by rw [pending_after_read]; exact hpend)
      rw [nextLine, hs]
      simp only [hd, if_false]
      rw [h, pending_after_read, unread_after_read, List.length_drop]
      simp only [Prod.mk.injEq, true_and]
      congr 1
      omega

/-- One run of the splitter on pending bytes that start with a complete line: the line
is consumed and decoded, the line position advances by one, the rest stays pending. -/
theorem readNext_line (decode : List Nat → Option ε) (chunk : Nat) (hchunk : 0 < chunk)
    (fs : FS) (rd : Reader) (l rest : List Nat) (hl : nl ∉ l)
    (hpend : pending fs rd = l ++ nl :: rest) :
    ∃ rd1, readNext decode chunk fs rd = (some (decodeLine decode l), rd1) ∧
      pending fs rd1 = rest ∧
      rd1.inode = rd.inode ∧ rd1.line = rd.line + 1 ∧ rd1.epoch = rd.epoch ∧
      (rd.readOff ≤ (fs.data rd.inode).length → rd1.readOff ≤ (fs.data rd.inode).length) ∧
      (Consumed rd → Consumed rd1) := by
  obtain ⟨rd1, h1, h2, h3, h4, h5, _, h7, h8⟩ :=
    nextLine_some chunk hchunk fs l rest hl ((fs.data rd.inode).length - rd.readOff + 1) rd
      (by rw [unread_length]; omega) hpend
  refine ⟨{ rd1 with line := rd1.line + 1 }, ?_, ?_, h3, ?_, h5, h7, ?_⟩
  · simp only [readNext, h1]
  · simpa [pending, unread] using h2
  · simp only [h4]
  · intro hc
    unfold Consumed at hc ⊢
    simp only
    omega

/-- One run of the splitter on pending bytes without a line feed: no line, everything
up to the end of the file is kept in the buffer. -/
theorem readNext_eof (decode : List Nat → Option ε) (chunk : Nat) (hchunk : 0 < chunk)
    (fs : FS) (rd : Reader) (hpend : nl ∉ pending fs rd) :
    readNext decode chunk fs rd =
      (none, { rd with buf := pending fs rd,
                       readOff := rd.readOff + (unread fs rd).length }) := by
  have h := nextLine_none chunk hchunk fs ((fs.data rd.inode).length - rd.readOff + 1) rd
    (by rw [unread_length]; omega) hpend
  simp only [readNext, h]

/-- `Next()` on pending bytes that start with a complete line: the line is consumed and
decoded, the line position advances by one, the rest stays pending. -/
theorem Next_line (decode : List Nat → Option ε) (chunk : Nat) (hchunk : 0 < chunk)
    (fs : FS) (rd : Reader) (l rest : List Nat) (hl : nl ∉ l)
    (hpend : pending fs rd = l ++ nl :: rest) :
    ∃ rd1, Next decode chunk fs rd = (decodeLine decode l, rd1) ∧ pending fs rd1 = rest ∧
      rd1.inode = rd.inode ∧ rd1.line = rd.line + 1 ∧ rd1.epoch = rd.epoch ∧
      (rd.readOff ≤ (fs.data rd.inode).length → rd1.readOff ≤ (fs.data rd.inode).length) ∧
      (Consumed rd → Consumed rd1) := by
  obtain ⟨rd1, h1, h2⟩ := readNext_line decode chunk hchunk fs rd l rest hl hpend
  exact ⟨rd1, by simp only [Next, h1], h2⟩

/-- `Next()` at the end of the data of an intact file: end of data, the partial tail is
kept in the buffer, and the reader is otherwise as it was. -/
theorem Next_eof_intact (decode : List Nat → Option ε) (chunk : Nat) (hchunk : 0 < chunk)
    (fs : FS) (rd : Reader) (hin : Intact fs rd) (hpend : nl ∉ pending fs rd) :
    Next decode chunk fs rd =
      (Outcome.EndOfData,
        { rd with buf := pending fs rd, readOff := (fs.data rd.inode).length }) := by
  have h := readNext_eof decode chunk hchunk fs rd hpend
  obtain ⟨hp, hsz⟩ := hin
  have hoff : rd.readOff + (unread fs rd).length = (fs.data rd.inode).length := by
    rw [unread_length]; omega
  simp only [Next, h, hoff, checkRotation, hp]
  simp

/-- `Next()` at the end of the data when the path names no file (the file was renamed
away): end of data, on the handle the reader has. -/
theorem Next_eof_no_path (decode : List Nat → Option ε) (chunk : Nat) (hchunk : 0 < chunk)
    (fs : FS) (rd : Reader) (hpend : nl ∉ pending fs rd) (hpath : fs.path = none) :
    Next decode chunk fs rd =
      (Outcome.EndOfData,
        { rd with buf := pending fs rd,
                  readOff := rd.readOff + (unread fs rd).length }) := by
  have h := readNext_eof decode chunk hchunk fs rd hpend
  simp only [Next, h, checkRotation, hpath]

/-- `Next()` at the end of the data when the path names another file, or the same file
cut below the read offset: the file at the path is opened anew and read from. -/
theorem Next_eof_rotated (decode : List Nat → Option ε) (chunk : Nat) (hchunk : 0 < chunk)
    (fs : FS) (rd : Reader) (j : Nat) (hpend : nl ∉ pending fs rd) (hpath : fs.path = some j)
    (hrot : j ≠ rd.inode ∨ (fs.data j).length < rd.readOff) :
    Next decode chunk fs rd =
      match readNext decode chunk fs
        { inode := j, readOff := 0, buf := [], line := 0, epoch := rd.epoch + 1,
          openSize := (fs.data j).length } with
      | (some o, rd3) => (o, rd3)
      | (none, rd3) => (Outcome.EndOfData, rd3) := by
  have h := readNext_eof decode chunk hchunk fs rd hpend
  have hc : j ≠ rd.inode ∨ (fs.data j).length < rd.readOff + (unread fs rd).length := by
    rcases hrot with h1 | h1
    · exact Or.inl h1
    · exact Or.inr (by omega)
  simp only [Next, h, checkRotation, hpath]
  simp [hc]

/-- `Next()` that finds a rotated or truncated file holding no complete line: end of
data, with the reader on the new file at line position 0. -/
theorem Next_rotated_eof (decode : List Nat → Option ε) (chunk : Nat) (hchunk : 0 < chunk)
    (fs : FS) (rd : Reader) (j : Nat) (hpend : nl ∉ pending fs rd) (hpath : fs.path = some j)
    (hrot : j ≠ rd.inode ∨ (fs.data j).length < rd.readOff) (hnew : nl ∉ fs.data j) :
    Next decode chunk fs rd =
      (Outcome.EndOfData,
        { inode := j, readOff := (fs.data j).length, buf := fs.data j, line := 0,
          epoch := rd.epoch + 1, openSize := (fs.data j).length }) := by
  rw [Next_eof_rotated decode chunk hchunk fs rd j hpend hpath hrot]
  have hp : ∀ (ep sz : Nat), pending fs ⟨j, 0, [], 0, ep, sz⟩ = fs.data j := by
    intro ep sz
    simp [pending, unread]
  rw [readNext_eof decode chunk hchunk fs _ (by rw [hp]; exact hnew), hp]
  simp [unread]

/-- `Next()` that finds a rotated or truncated file starting with a complete line: the
call returns that line decoded, with the reader on the new file at line position 1. -/
theorem Next_rotated_line (decode : List Nat → Option ε) (chunk : Nat) (hchunk : 0 < chunk)
    (fs : FS) (rd : Reader) (j : Nat) (l rest : List Nat) (hpend : nl ∉ pending fs rd)
    (hpath : fs.path = some j)
    (hrot : j ≠ rd.inode ∨ (fs.data j).length < rd.readOff)
    (hl : nl ∉ l) (hnew : fs.data j = l ++ nl :: rest) :
    ∃ rd3, Next decode chunk fs rd = (decodeLine decode l, rd3) ∧ rd3.line = 1 ∧
      rd3.inode = j ∧ rd3.epoch = rd.epoch + 1 ∧ pending fs rd3 = rest := by
  rw [Next_eof_rotated decode chunk hchunk fs rd j hpend hpath hrot]
  obtain ⟨rd3, h1, h2, h3, h4, h5, _⟩ := readNext_line decode chunk hchunk fs
    { inode := j, readOff := 0, buf := [], line := 0, epoch := rd.epoch + 1,
      openSize := (fs.data j).length } l rest hl (by simp [pending, unread, hnew])
  exact ⟨rd3, by rw [h1], by simpa using h4, h3, h5, h2⟩

/-- Appending to the file behind an up-to-date handle appends to the pending bytes. -/
theorem pending_Write (fs : FS) (rd : Reader) (x : List Nat)
    (hsz : rd.readOff ≤ (fs.data rd.inode).length) :
    pending (Write fs rd.inode x) rd = pending fs rd ++ x := by
  simp [pending, unread, Write, FS.setData, List.drop_append_of_le_length hsz]

theorem pending_WriteLine (fs : FS) (rd : Reader) (l : List Nat)
    (hsz : rd.readOff ≤ (fs.data rd.inode).length) :
    pending (WriteLine fs rd.inode l) rd = pending fs rd ++ (l ++ [nl]) := by
  unfold WriteLine
  rw [pending_Write, pending_Write fs rd l hsz, List.append_assoc]
  simp only [Write, FS.setData, if_true, List.length_append]
  omega

theorem Intact_WriteLine (fs : FS) (rd : Reader) (l : List Nat) (hin : Intact fs rd) :
    Intact (WriteLine fs rd.inode l) rd := by
  obtain ⟨h1, h2⟩ := hin
  refine ⟨by simpa [WriteLine, Write, FS.setData] using h1, ?_⟩
  simp only [WriteLine, Write, FS.setData, if_true, List.length_append]
  omega

/-- C3: when the bytes the reader has not delivered are a partial line `p` (no line
feed) of an intact file, `Next()` returns end of data (`nil, io.EOF`) and leaves `Pos()`
unchanged; once the remainder `r` and its line feed are appended, the next `Next()`
returns the event decoded from the whole line `p ++ r`, `Pos()` has advanced by one, and
the `Next()` after that is end of data again (the line gave exactly one event). -/
theorem partial_line_waits_for_newline (decode : List Nat → Option ε) (chunk : Nat)
    (hchunk : 0 < chunk) (fs : FS) (rd : Reader) (p r : List Nat) (e : ε)
    (hin : Intact fs rd) (hpend : pending fs rd = p) (hp : nl ∉ p) (hr : nl ∉ r)
    (hdec : decode (p ++ r) = some e) :
    (Next decode chunk fs rd).1 = Outcome.EndOfData ∧
    Pos (Next decode chunk fs rd).2 = Pos rd ∧
    (Next decode chunk (WriteLine fs rd.inode r) (Next decode chunk fs rd).2).1
      = Outcome.Event e ∧
    Pos (Next decode chunk (WriteLine fs rd.inode r) (Next decode chunk fs rd).2).2
      = Pos rd + 1 ∧
    (Next decode chunk (WriteLine fs rd.inode r)
      (Next decode chunk (WriteLine fs rd.inode r) (Next decode chunk fs rd).2).2).1
      = Outcome.EndOfData := by
  have h1 := Next_eof_intact decode chunk hchunk fs rd hin (by rw [hpend]; exact hp)
  rw [h1, hpend]
  simp only [Pos, true_and]
  -- the reader after the end of data
  have hin1 : Intact fs { rd with buf := p, readOff := (fs.data rd.inode).length } :=
    ⟨hin.1, Nat.le_refl _⟩
  have hpend1 : pending fs { rd with buf := p, readOff := (fs.data rd.inode).length } = p := by
    simp [pending, unread]
  have hw := pending_WriteLine fs { rd with buf := p, readOff := (fs.data rd.inode).length }
    r (Nat.le_refl _)
  rw [hpend1] at hw
  have hpr : nl ∉ p ++ r := by
    simp only [List.mem_append, not_or]; exact ⟨hp, hr⟩
  obtain ⟨rd2, g1, g2, g3, g4, _, g6, _⟩ := Next_line decode chunk hchunk
    (WriteLine fs rd.inode r) { rd with buf := p, readOff := (fs.data rd.inode).length }
    (p ++ r) [] hpr (by rw [hw]; simp)
  rw [g1]
  have hin2 : Intact (WriteLine fs rd.inode r) rd2 := by
    have hi := Intact_WriteLine fs { rd with buf := p, readOff := (fs.data rd.inode).length }
      r hin1
    refine ⟨by rw [g3]; exact hi.1, ?_⟩
    rw [g3]
    exact g6 hi.2
  have h3 := Next_eof_intact decode chunk hchunk (WriteLine fs rd.inode r) rd2 hin2
    (by rw [g2]; simp)
  rw [h3]
  simp [decodeLine, hdec, g4]

/-- Witness for C3: the file holds the partial line `{"a` and `":1}` is written later. -/
theorem partial_line_waits_for_newline_witness :
    (0 < 2 ∧ Intact (sampleFS [123, 34, 97]) sampleReader ∧
      pending (sampleFS [123, 34, 97]) sampleReader = [123, 34, 97] ∧
      nl ∉ [123, 34, 97] ∧ nl ∉ [34, 58, 49, 125] ∧
      sampleDecode ([123, 34, 97] ++ [34, 58, 49, 125]) = some 7) ∧
    (Next sampleDecode 2 (sampleFS [123, 34, 97]) sampleReader).1 = Outcome.EndOfData ∧
    Pos (Next sampleDecode 2 (sampleFS [123, 34, 97]) sampleReader).2 = Pos sampleReader ∧
    (Next sampleDecode 2 (WriteLine (sampleFS [123, 34, 97]) sampleReader.inode [34, 58, 49, 125])
      (Next sampleDecode 2 (sampleFS [123, 34, 97]) sampleReader).2).1 = Outcome.Event 7 :=
  ⟨⟨by decide, ⟨rfl, by decide⟩, by decide, by decide, by decide, by decide⟩,
    (partial_line_waits_for_newline sampleDecode 2 (by decide) (sampleFS [123, 34, 97])
      sampleReader [123, 34, 97] [34, 58, 49, 125] 7 ⟨rfl, by decide⟩ (by decide) (by decide)
      (by decide) (by decide)).1,
    (partial_line_waits_for_newline sampleDecode 2 (by decide) (sampleFS [123, 34, 97])
      sampleReader [123, 34, 97] [34, 58, 49, 125] 7 ⟨rfl, by decide⟩ (by decide) (by decide)
      (by decide) (by decide)).2.1,
    (partial_line_waits_for_newline sampleDecode 2 (by decide) (sampleFS [123, 34, 97])
      sampleReader [123, 34, 97] [34, 58, 49, 125] 7 ⟨rfl, by decide⟩ (by decide) (by decide)
      (by decide) (by decide)).2.2.1⟩

/-- C7: when the next complete line `bad` is one the decoder rejects, `Next()` returns
a malformed-event error (neither end of data nor an event), `Pos()` advances by one and
the line is gone from the pending bytes. It is not delivered again: if a line `good` that
the decoder accepts follows, already in the file or written after the call, the next
`Next()` returns the event of `good`, and `Pos()` has advanced by two. -/
theorem malformed_line_is_consumed (decode : List Nat → Option ε) (chunk : Nat)
    (hchunk : 0 < chunk) (fs : FS) (rd : Reader) (bad rest : List Nat)
    (hbad : nl ∉ bad) (hrej : decode bad = none)
    (hpend : pending fs rd = bad ++ nl :: rest) :
    (Next decode chunk fs rd).1 = Outcome.MalformedEvent bad ∧
    (Next decode chunk fs rd).1.toResult.err = some PgImport.ReadErr.MalformedEvent ∧
    Pos (Next decode chunk fs rd).2 = Pos rd + 1 ∧
    pending fs (Next decode chunk fs rd).2 = rest ∧
    (∀ (good rest2 : List Nat) (e : ε), nl ∉ good → decode good = some e →
      rest = good ++ nl :: rest2 →
      (Next decode chunk fs (Next decode chunk fs rd).2).1 = Outcome.Event e ∧
      Pos (Next decode chunk fs (Next decode chunk fs rd).2).2 = Pos rd + 2) ∧
    (∀ (good : List Nat) (e : ε), nl ∉ good → decode good = some e →
      rest = [] → rd.readOff ≤ (fs.data rd.inode).length →
      (Next decode chunk (WriteLine fs rd.inode good) (Next decode chunk fs rd).2).1
        = Outcome.Event e ∧
      Pos (Next decode chunk (WriteLine fs rd.inode good) (Next decode chunk fs rd).2).2
        = Pos rd + 2) := by
  obtain ⟨rd1, h1, h2, h3, h4, _, h6, _⟩ :=
    Next_line decode chunk hchunk fs rd bad rest hbad hpend
  rw [h1]
  simp only [decodeLine, hrej, Outcome.toResult, Pos, true_and]
  refine ⟨h4, h2, ?_, ?_⟩
  · intro good rest2 e hgood hdec hrest
    obtain ⟨rd2, g1, _, _, g4, _⟩ :=
      Next_line decode chunk hchunk fs rd1 good rest2 hgood (by rw [h2, hrest])
    rw [g1]
    simp only [decodeLine, hdec, true_and]
    omega
  · intro good e hgood hdec hrest hsz
    have hsz1 : rd1.readOff ≤ (fs.data rd1.inode).length := by
      rw [h3]; exact h6 hsz
    have hw := pending_WriteLine fs rd1 good hsz1
    rw [h2, hrest, h3] at hw
    obtain ⟨rd2, g1, _, _, g4, _⟩ :=
      Next_line decode chunk hchunk (WriteLine fs rd.inode good) rd1 good [] hgood
        (by rw [hw]; simp)
    rw [g1]
    simp only [decodeLine, hdec, true_and]
    omega

/-- Witness for C7: the line `asdf` is rejected by the sample decoder, the line `{}` behind
it is accepted. -/
theorem malformed_line_is_consumed_witness :
    (0 < 3 ∧ nl ∉ [97, 115, 100, 102] ∧ sampleDecode [97, 115, 100, 102] = none ∧
      pending (sampleFS [97, 115, 100, 102, 10, 123, 125, 10]) sampleReader
        = [97, 115, 100, 102] ++ nl :: [123, 125, 10]) ∧
    (Next sampleDecode 3 (sampleFS [97, 115, 100, 102, 10, 123, 125, 10]) sampleReader).1
      = Outcome.MalformedEvent [97, 115, 100, 102] ∧
    (Next sampleDecode 3 (sampleFS [97, 115, 100, 102, 10, 123, 125, 10])
      (Next sampleDecode 3 (sampleFS [97, 115, 100, 102, 10, 123, 125, 10])
        sampleReader).2).1 = Outcome.Event 2 :=
  ⟨⟨by decide, by decide, by decide, by decide⟩,
    (malformed_line_is_consumed sampleDecode 3 (by decide)
      (sampleFS [97, 115, 100, 102, 10, 123, 125, 10]) sampleReader [97, 115, 100, 102]
      [123, 125, 10] (by decide) (by decide) (by decide)).1,
    ((malformed_line_is_consumed sampleDecode 3 (by decide)
      (sampleFS [97, 115, 100, 102, 10, 123, 125, 10]) sampleReader [97, 115, 100, 102]
      [123, 125, 10] (by decide) (by decide) (by decide)).2.2.2.2.1
        [123, 125] [] 2 (by decide) (by decide) (by decide)).1⟩

theorem joinLines_append (a b : List (List Nat)) :
    joinLines (a ++ b) = joinLines a ++ joinLines b := by
  induction a with
  | nil => rfl
  | cons l ls ih => simp [joinLines, ih]

theorem data_WriteLine (fs : FS) (w : Nat) (l : List Nat) :
    (WriteLine fs w l).data w = fs.data w ++ (l ++ [nl]) ∧
    (WriteLine fs w l).path = fs.path := by
  simp [WriteLine, Write, FS.setData]

theorem data_WriteLines (w : Nat) : ∀ (ls : List (List Nat)) (fs : FS),
    (WriteLines fs w ls).data w = fs.data w ++ joinLines ls ∧
    (WriteLines fs w ls).path = fs.path := by
  intro ls
  induction ls with
  | nil => intro fs; simp [WriteLines, joinLines]
  | cons l ls ih =>
    intro fs
    obtain ⟨h1, h2⟩ := ih (WriteLine fs w l)
    obtain ⟨g1, g2⟩ := data_WriteLine fs w l
    simp only [WriteLines, joinLines]
    rw [h1, h2, g1, g2]
    simp

theorem open_spec (fs : FS) (rd : Reader) (h : NewFollowingReader fs = some rd) :
    fs.path = some rd.inode ∧ rd.readOff = 0 ∧ rd.buf = [] ∧ rd.line = 0 := by
  unfold NewFollowingReader at h
  rcases hp : fs.path with _ | i
  · simp [hp] at h
  · simp only [hp, Option.some.injEq] at h
    subst h
    simp

theorem decodeLine_map (decode : List Nat → Option ε) :
    ∀ (ls : List (List Nat)) (es : List ε), ls.map decode = es.map some →
      ls.map (decodeLine decode) = es.map Outcome.Event := by
  intro ls
  induction ls with
  | nil =>
    intro es h
    cases es with
    | nil => rfl
    | cons a l => simp at h
  | cons l ls ih =>
    intro es h
    cases es with
    | nil => simp at h
    | cons a as =>
      simp only [List.map_cons, List.cons.injEq] at h ⊢
      exact ⟨by simp [decodeLine, h.1], ih as h.2⟩

/-- Calling `Next()` once for each of the complete lines the pending bytes start with:
the outcomes are the decoded lines in order, and the line position advances by their
number. -/
theorem nextN_lines (decode : List Nat → Option ε) (chunk : Nat) (hchunk : 0 < chunk)
    (fs : FS) (tail : List Nat) :
    ∀ (ls : List (List Nat)) (rd : Reader), (∀ l ∈ ls, nl ∉ l) →
      pending fs rd = joinLines ls ++ tail →
      ∃ rd1, nextN decode chunk fs ls.length rd = (ls.map (decodeLine decode), rd1) ∧
        pending fs rd1 = tail ∧ rd1.inode = rd.inode ∧ rd1.line = rd.line + ls.length ∧
        (rd.readOff ≤ (fs.data rd.inode).length →
          rd1.readOff ≤ (fs.data rd.inode).length) := by
  intro ls
  induction ls with
  | nil =>
    intro rd _ hpend
    exact ⟨rd, rfl, by simpa [joinLines] using hpend, rfl, rfl, fun h => h⟩
  | cons l ls ih =>
    intro rd hls hpend
    have hl : nl ∉ l := hls l (List.mem_cons_self _ _)
    obtain ⟨rd1, h1, h2, h3, h4, _, h6, _⟩ :=
      Next_line decode chunk hchunk fs rd l (joinLines ls ++ tail) hl
        (by rw [hpend]; simp [joinLines])
    obtain ⟨rd2, g1, g2, g3, g4, g5⟩ :=
      ih rd1 (fun x hx => hls x (List.mem_cons_of_mem _ hx)) h2
    refine ⟨rd2, ?_, g2, by rw [g3, h3], ?_, ?_⟩
    · simp only [List.length_cons, nextN, h1, g1, List.map_cons]
    · rw [g4, h4, List.length_cons]; omega
    · intro hsz
      have := g5 (by rw [h3]; exact h6 hsz)
      rw [h3] at this
      exact this

theorem count_nl_joinLines : ∀ (ls : List (List Nat)), (∀ l ∈ ls, nl ∉ l) →
    (joinLines ls).count nl = ls.length := by
  intro ls
  induction ls with
  | nil => intro _; rfl
  | cons l ls ih =>
    intro hls
    have hl : nl ∉ l := hls l (List.mem_cons_self _ _)
    have h0 : l.count nl = 0 := List.count_eq_zero.mpr hl
    simp only [joinLines, List.count_append, List.count_cons_self, h0, List.length_cons,
      ih (fun x hx => hls x (List.mem_cons_of_mem _ hx))]
    omega

theorem lastTail_line (l r : List Nat) (hl : nl ∉ l) :
    lastTail (l ++ nl :: r) = lastTail r := by
  induction l with
  | nil => simp [lastTail, splitAtNl]
  | cons c cs ih =>
    simp only [List.mem_cons, not_or] at hl
    have hs := splitAtNl_line (c :: cs) r
      (by simp only [List.mem_cons, not_or]; exact hl)
    simp only [List.cons_append] at hs ⊢
    rw [lastTail, hs]
    exact ih hl.2

theorem lastTail_joinLines : ∀ (ls : List (List Nat)), (∀ l ∈ ls, nl ∉ l) →
    lastTail (joinLines ls) = [] := by
  intro ls
  induction ls with
  | nil => intro _; rfl
  | cons l ls ih =>
    intro hls
    simp only [joinLines]
    rw [lastTail_line l _ (hls l (List.mem_cons_self _ _))]
    exact ih (fun x hx => hls x (List.mem_cons_of_mem _ hx))

/-- C4: a following reader opened on an empty file returns end of data from `Next()`;
when `n` complete lines that the decoder accepts are then appended, the next `n` calls
return their events in file order, `Pos()` is `k` after `k` of these calls, the call
after them returns end of data, and `Pos()` is `n`. -/
theorem follow_appended_lines (decode : List Nat → Option ε) (chunk : Nat)
    (hchunk : 0 < chunk) (fs : FS) (rd0 : Reader) (ls : List (List Nat)) (es : List ε)
    (hopen : NewFollowingReader fs = some rd0) (hempty : fs.data rd0.inode = [])
    (hls : ∀ l ∈ ls, nl ∉ l) (hdec : ls.map decode = es.map some) :
    (Next decode chunk fs rd0).1 = Outcome.EndOfData ∧
    (nextN decode chunk (WriteLines fs rd0.inode ls) ls.length
      (Next decode chunk fs rd0).2).1 = es.map Outcome.Event ∧
    (∀ k, k ≤ ls.length →
      Pos (nextN decode chunk (WriteLines fs rd0.inode ls) k
        (Next decode chunk fs rd0).2).2 = k) ∧
    (Next decode chunk (WriteLines fs rd0.inode ls)
      (nextN decode chunk (WriteLines fs rd0.inode ls) ls.length
        (Next decode chunk fs rd0).2).2).1 = Outcome.EndOfData ∧
    Pos (Next decode chunk (WriteLines fs rd0.inode ls)
      (nextN decode chunk (WriteLines fs rd0.inode ls) ls.length
        (Next decode chunk fs rd0).2).2).2 = ls.length := by
  obtain ⟨o1, o2, o3, o4⟩ := open_spec fs rd0 hopen
  have hp0 : pending fs rd0 = [] := by simp [pending, unread, o3, hempty]
  have h1 := Next_eof_intact decode chunk hchunk fs rd0 ⟨o1, by omega⟩
    (by rw [hp0]; simp)
  rw [h1, hp0, hempty]
  simp only [List.length_nil, true_and]
  obtain ⟨d1, d2⟩ := data_WriteLines rd0.inode ls fs
  have hpend : ∀ tail, joinLines ls = tail →
      pending (WriteLines fs rd0.inode ls) { rd0 with buf := [], readOff := 0 } = tail := by
    intro tail ht
    simp [pending, unread, d1, hempty, ht]
  obtain ⟨rdn, g1, g2, g3, g4, g5⟩ := nextN_lines decode chunk hchunk
    (WriteLines fs rd0.inode ls) [] ls { rd0 with buf := [], readOff := 0 } hls
    (by rw [hpend _ rfl]; simp)
  rw [g1]
  have hin : Intact (WriteLines fs rd0.inode ls) rdn := by
    refine ⟨by rw [d2, g3]; exact o1, ?_⟩
    rw [g3]
    exact g5 (Nat.zero_le _)
  have h2 := Next_eof_intact decode chunk hchunk (WriteLines fs rd0.inode ls) rdn hin
    (by rw [g2]; simp)
  rw [h2]
  simp only [Pos, true_and]
  refine ⟨decodeLine_map decode ls es hdec, ?_, by rw [g4]; simp [o4]⟩
  intro k hk
  obtain ⟨rdk, k1, _, _, k4, _⟩ := nextN_lines decode chunk hchunk
    (WriteLines fs rd0.inode ls) (joinLines (ls.drop k)) (ls.take k)
    { rd0 with buf := [], readOff := 0 }
    (fun x hx => hls x (List.mem_of_mem_take hx))
    (by rw [hpend _ rfl, ← joinLines_append, List.take_append_drop])
  rw [List.length_take, Nat.min_eq_left hk] at k1 k4
  rw [k1, k4]
  simp [o4]

/-- C6: on a file of `n` complete lines, a freshly opened reader after `SkipToEnd()` has
`Pos() = n`; its next `Next()` returns end of data (none of the `n` lines) and leaves
`Pos()` at `n`; when one more complete line that the decoder accepts is appended, the
following `Next()` returns the event of that line. -/
theorem skip_to_end_then_follow (decode : List Nat → Option ε) (chunk : Nat)
    (hchunk : 0 < chunk) (fs : FS) (rd0 : Reader) (ls : List (List Nat)) (l : List Nat)
    (e : ε) (hopen : NewFollowingReader fs = some rd0)
    (hdata : fs.data rd0.inode = joinLines ls) (hls : ∀ x ∈ ls, nl ∉ x)
    (hl : nl ∉ l) (hdec : decode l = some e) :
    Pos (SkipToEnd fs rd0) = ls.length ∧
    (Next decode chunk fs (SkipToEnd fs rd0)).1 = Outcome.EndOfData ∧
    Pos (Next decode chunk fs (SkipToEnd fs rd0)).2 = ls.length ∧
    (Next decode chunk (WriteLine fs rd0.inode l)
      (Next decode chunk fs (SkipToEnd fs rd0)).2).1 = Outcome.Event e ∧
    Pos (Next decode chunk (WriteLine fs rd0.inode l)
      (Next decode chunk fs (SkipToEnd fs rd0)).2).2 = ls.length + 1 := by
  obtain ⟨o1, _, _, _⟩ := open_spec fs rd0 hopen
  have hcount := count_nl_joinLines ls hls
  have htail := lastTail_joinLines ls hls
  have hps : pending fs (SkipToEnd fs rd0) = [] := by
    simp [pending, unread, SkipToEnd, hdata, htail]
  have h1 := Next_eof_intact decode chunk hchunk fs (SkipToEnd fs rd0)
    ⟨o1, by simp [SkipToEnd]⟩ (by rw [hps]; simp)
  rw [h1, hps]
  have hw := pending_WriteLine fs
    { SkipToEnd fs rd0 with buf := [], readOff := (fs.data (SkipToEnd fs rd0).inode).length }
    l (Nat.le_refl _)
  have hp1 : pending fs { SkipToEnd fs rd0 with
      buf := [], readOff := (fs.data (SkipToEnd fs rd0).inode).length } = [] := by
    simp [pending, unread, SkipToEnd]
  rw [hp1] at hw
  obtain ⟨rd2, g1, _, _, g4, _⟩ := Next_line decode chunk hchunk (WriteLine fs rd0.inode l)
    { SkipToEnd fs rd0 with buf := [], readOff := (fs.data (SkipToEnd fs rd0).inode).length }
    l [] hl (by simpa [SkipToEnd] using hw)
  rw [g1]
  simp only [Pos, decodeLine, hdec, g4, true_and]
  simp [SkipToEnd, hdata, hcount]

/-- The file system after the rename test has renamed the file away, created a new
file at the path and written one line to it: the path names the new file, which holds
that line, and every other file is as it was. -/
theorem recreated_file (fs : FS) (l : List Nat) :
    (WriteLine (NewFileWriter (Rename fs)).1 (NewFileWriter (Rename fs)).2 l).path
      = some fs.fresh ∧
    (WriteLine (NewFileWriter (Rename fs)).1 (NewFileWriter (Rename fs)).2 l).data fs.fresh
      = l ++ nl :: [] ∧
    (NewFileWriter (Rename fs)).1.path = some fs.fresh ∧
    (NewFileWriter (Rename fs)).1.data fs.fresh = [] ∧
    ∀ i, i ≠ fs.fresh →
      (WriteLine (NewFileWriter (Rename fs)).1 (NewFileWriter (Rename fs)).2 l).data i
        = fs.data i ∧
      (NewFileWriter (Rename fs)).1.data i = fs.data i := by
  refine ⟨?_, ?_, ?_, ?_, ?_⟩
  · simp [WriteLine, Write, NewFileWriter, Rename, FS.setData]
  · simp [WriteLine, Write, NewFileWriter, Rename, FS.setData]
  · simp [NewFileWriter, Rename]
  · simp [NewFileWriter, Rename]
  · intro i hi
    simp [WriteLine, Write, NewFileWriter, Rename, FS.setData, hi]

/-- The pending bytes of a reader only depend on the file behind its handle. -/
theorem pending_congr (fs fs2 : FS) (rd : Reader) (h : fs2.data rd.inode = fs.data rd.inode) :
    pending fs2 rd = pending fs rd := by
  simp [pending, unread, h]

/-- C5, amended: for a reader that has consumed `k ≥ 1` lines and has no complete line
left to deliver. (1) After the file is truncated to zero length, `Next()` returns end of
data with the line position reset to 0, and after one complete line that the decoder
accepts is written, the next `Next()` returns its event with `Pos() = 1`. (2) The same
holds after the file is renamed away and a new, still empty file is created at the path.
(3) In the order of `TestEveReaderFollowRename`: after the rename `Next()` returns end of
data with `Pos()` unchanged; once a new file is created at the path and a line written
to it, the next `Next()`, the call that finds the new file, returns the event of that
line with `Pos() = 1`. (4) Likewise when no `Next()` is called between the rename and
the writing of the new file. -/
theorem rotation_resets_position (decode : List Nat → Option ε) (chunk : Nat)
    (hchunk : 0 < chunk) (fs : FS) (rd : Reader) (l : List Nat) (e : ε)
    (hin : Intact fs rd) (hcons : Consumed rd) (hk : 1 ≤ Pos rd)
    (hend : nl ∉ pending fs rd) (hfresh : rd.inode < fs.fresh)
    (hl : nl ∉ l) (hdec : decode l = some e) :
    ((Next decode chunk (Truncate fs rd.inode) rd).1 = Outcome.EndOfData ∧
      Pos (Next decode chunk (Truncate fs rd.inode) rd).2 = 0 ∧
      (Next decode chunk (WriteLine (Truncate fs rd.inode) rd.inode l)
        (Next decode chunk (Truncate fs rd.inode) rd).2).1 = Outcome.Event e ∧
      Pos (Next decode chunk (WriteLine (Truncate fs rd.inode) rd.inode l)
        (Next decode chunk (Truncate fs rd.inode) rd).2).2 = 1) ∧
    ((Next decode chunk (NewFileWriter (Rename fs)).1 rd).1 = Outcome.EndOfData ∧
      Pos (Next decode chunk (NewFileWriter (Rename fs)).1 rd).2 = 0 ∧
      (Next decode chunk
        (WriteLine (NewFileWriter (Rename fs)).1 (NewFileWriter (Rename fs)).2 l)
        (Next decode chunk (NewFileWriter (Rename fs)).1 rd).2).1 = Outcome.Event e ∧
      Pos (Next decode chunk
        (WriteLine (NewFileWriter (Rename fs)).1 (NewFileWriter (Rename fs)).2 l)
        (Next decode chunk (NewFileWriter (Rename fs)).1 rd).2).2 = 1) ∧
    ((Next decode chunk (Rename fs) rd).1 = Outcome.EndOfData ∧
      Pos (Next decode chunk (Rename fs) rd).2 = Pos rd ∧
      (Next decode chunk
        (WriteLine (NewFileWriter (Rename fs)).1 (NewFileWriter (Rename fs)).2 l)
        (Next decode chunk (Rename fs) rd).2).1 = Outcome.Event e ∧
      Pos (Next decode chunk
        (WriteLine (NewFileWriter (Rename fs)).1 (NewFileWriter (Rename fs)).2 l)
        (Next decode chunk (Rename fs) rd).2).2 = 1) ∧
    ((Next decode chunk
        (WriteLine (NewFileWriter (Rename fs)).1 (NewFileWriter (Rename fs)).2 l) rd).1
        = Outcome.Event e ∧
      Pos (Next decode chunk
        (WriteLine (NewFileWriter (Rename fs)).1 (NewFileWriter (Rename fs)).2 l) rd).2
        = 1) := by
  have hoff : 1 ≤ rd.readOff := by
    unfold Consumed at hcons
    unfold Pos at hk
    omega
  have hbuf : nl ∉ rd.buf := fun h => hend (by unfold pending; exact List.mem_append_left _ h)
  have hne : rd.inode ≠ fs.fresh := by omega
  obtain ⟨n1, n2, n3, n4, n5⟩ := recreated_file fs l
  have hpN : pending (WriteLine (NewFileWriter (Rename fs)).1 (NewFileWriter (Rename fs)).2 l) rd
      = pending fs rd := pending_congr _ _ rd (n5 rd.inode hne).1
  refine ⟨?_, ?_, ?_, ?_⟩
  · -- truncation
    have hpT : pending (Truncate fs rd.inode) rd = rd.buf := by
      simp [pending, unread, Truncate, FS.setData]
    have hdT : (Truncate fs rd.inode).data rd.inode = [] := by
      simp [Truncate, FS.setData]
    have h1 := Next_rotated_eof decode chunk hchunk (Truncate fs rd.inode) rd rd.inode
      (by rw [hpT]; exact hbuf) (by simpa [Truncate, FS.setData] using hin.1)
      (Or.inr (by rw [hdT]; simpa using hoff)) (by rw [hdT]; simp)
    obtain ⟨rd2, g1, _, _, g4, _⟩ := Next_line decode chunk hchunk
      (WriteLine (Truncate fs rd.inode) rd.inode l)
      (Next decode chunk (Truncate fs rd.inode) rd).2 l [] hl
      (by rw [h1]; simp [pending, unread, WriteLine, Write, Truncate, FS.setData])
    rw [g1, h1] at *
    simp [Pos, decodeLine, hdec, g4]
  · -- rename, and a new file that is still empty
    have hpR : pending (NewFileWriter (Rename fs)).1 rd = pending fs rd :=
      pending_congr _ _ rd (n5 rd.inode hne).2
    have h1 := Next_rotated_eof decode chunk hchunk (NewFileWriter (Rename fs)).1 rd fs.fresh
      (by rw [hpR]; exact hend) n3 (Or.inl (fun h => hne h.symm)) (by rw [n4]; simp)
    obtain ⟨rd2, g1, _, _, g4, _⟩ := Next_line decode chunk hchunk
      (WriteLine (NewFileWriter (Rename fs)).1 (NewFileWriter (Rename fs)).2 l)
      (Next decode chunk (NewFileWriter (Rename fs)).1 rd).2 l [] hl
      (by rw [h1]; simp [pending, unread, n4, n2])
    rw [g1, h1] at *
    simp [Pos, decodeLine, hdec, g4]
  · -- rename, a call, then the new file with its line, and the call that finds it
    have hpR : pending (Rename fs) rd = pending fs rd := pending_congr _ _ rd rfl
    have h1 := Next_eof_no_path decode chunk hchunk (Rename fs) rd
      (by rw [hpR]; exact hend) rfl
    have hu : rd.readOff + (unread (Rename fs) rd).length = (fs.data rd.inode).length := by
      have := hin.2
      simp only [unread, Rename, List.length_drop]
      omega
    rw [hpR, hu] at h1
    have hp2 : pending
        (WriteLine (NewFileWriter (Rename fs)).1 (NewFileWriter (Rename fs)).2 l)
        (Next decode chunk (Rename fs) rd).2 = pending fs rd := by
      rw [h1]
      simp [pending, unread, (n5 rd.inode hne).1]
    obtain ⟨rd3, g1, g2, _⟩ := Next_rotated_line decode chunk hchunk
      (WriteLine (NewFileWriter (Rename fs)).1 (NewFileWriter (Rename fs)).2 l)
      (Next decode chunk (Rename fs) rd).2 fs.fresh l [] (by rw [hp2]; exact hend) n1
      (Or.inl (by rw [h1]; exact fun h => hne h.symm)) hl n2
    rw [g1, h1]
    simp [Pos, decodeLine, hdec, g2]
  · -- rename and the new file with its line, then the first call
    obtain ⟨rd3, g1, g2, _⟩ := Next_rotated_line decode chunk hchunk
      (WriteLine (NewFileWriter (Rename fs)).1 (NewFileWriter (Rename fs)).2 l)
      rd fs.fresh l [] (by rw [hpN]; exact hend) n1
      (Or.inl (fun h => hne h.symm)) hl n2
    rw [g1]
    simp [Pos, decodeLine, hdec, g2]

/-- A freshly opened reader has consumed nothing. -/
theorem Consumed_open (fs : FS) (rd : Reader) (h : NewFollowingReader fs = some rd) :
    Consumed rd := by
  obtain ⟨_, h2, h3, h4⟩ := open_spec fs rd h
  unfold Consumed
  rw [h2, h3, h4]
  simp

/-- A run of the splitter keeps the line position within the offset of the consumed
bytes. -/
theorem Consumed_readNext (decode : List Nat → Option ε) (chunk : Nat) (hchunk : 0 < chunk)
    (fs : FS) (rd : Reader) (h : Consumed rd) : Consumed (readNext decode chunk fs rd).2 := by
  rcases hs : splitAtNl (pending fs rd) with _ | ⟨l, rest⟩
  · have hno := splitAtNl_none_elim _ hs
    rw [readNext_eof decode chunk hchunk fs rd hno]
    unfold Consumed at h ⊢
    simp only [pending, List.length_append]
    omega
  · obtain ⟨hb, hl⟩ := splitAtNl_some_elim _ _ _ hs
    obtain ⟨rd1, h1, _, _, _, _, _, h7⟩ := readNext_line decode chunk hchunk fs rd l rest hl hb
    rw [h1]
    exact h7 h

/-- Every `Next()` keeps the line position within the offset of the consumed bytes. -/
theorem Consumed_Next (decode : List Nat → Option ε) (chunk : Nat) (hchunk : 0 < chunk)
    (fs : FS) (rd : Reader) (h : Consumed rd) : Consumed (Next decode chunk fs rd).2 := by
  have h1 := Consumed_readNext decode chunk hchunk fs rd h
  unfold Next
  rcases hr : readNext decode chunk fs rd with ⟨o, rd1⟩
  rw [hr] at h1
  cases o with
  | some o1 => exact h1
  | none =>
    simp only
    rcases hc : checkRotation fs rd1 with _ | rd2
    · exact h1
    · have h2 : Consumed rd2 := by
        unfold checkRotation at hc
        rcases hp : fs.path with _ | i
        · simp [hp] at hc
        · simp only [hp] at hc
          split at hc
          · simp only [Option.some.injEq] at hc
            subst hc
            simp [Consumed]
          · simp at hc
      have h3 := Consumed_readNext decode chunk hchunk fs rd2 h2
      simp only
      rcases hr2 : readNext decode chunk fs rd2 with ⟨o2, rd3⟩
      rw [hr2] at h3
      cases o2 <;> exact h3

/-- Witness for C4: two lines `{}` and `{1}` appended to an empty file. -/
theorem follow_appended_lines_witness :
    (0 < 2 ∧ NewFollowingReader (sampleFS []) = some sampleReader ∧
      (sampleFS []).data sampleReader.inode = [] ∧
      (∀ l ∈ [[123, 125], [123, 49, 125]], nl ∉ l) ∧
      [[123, 125], [123, 49, 125]].map sampleDecode = [2, 3].map some) ∧
    (Next sampleDecode 2 (sampleFS []) sampleReader).1 = Outcome.EndOfData ∧
    (nextN sampleDecode 2
      (WriteLines (sampleFS []) sampleReader.inode [[123, 125], [123, 49, 125]])
      [[123, 125], [123, 49, 125]].length
      (Next sampleDecode 2 (sampleFS []) sampleReader).2).1 = [2, 3].map Outcome.Event :=
  ⟨⟨by decide, by decide, by decide, by decide, by decide⟩,
    (follow_appended_lines sampleDecode 2 (by decide) (sampleFS []) sampleReader
      [[123, 125], [123, 49, 125]] [2, 3] (by decide) (by decide) (by decide)
      (by decide)).1,
    (follow_appended_lines sampleDecode 2 (by decide) (sampleFS []) sampleReader
      [[123, 125], [123, 49, 125]] [2, 3] (by decide) (by decide) (by decide)
      (by decide)).2.1⟩

/-- Witness for C6: a file of the two lines `{}` and `{1}`, then the line `{}{}`. -/
theorem skip_to_end_then_follow_witness :
    (0 < 2 ∧ NewFollowingReader (sampleFS [123, 125, 10, 123, 49, 125, 10])
        = some { sampleReader with openSize := 7 } ∧
      (sampleFS [123, 125, 10, 123, 49, 125, 10]).data 0
        = joinLines [[123, 125], [123, 49, 125]] ∧
      (∀ x ∈ [[123, 125], [123, 49, 125]], nl ∉ x) ∧
      nl ∉ [123, 125, 123, 125] ∧ sampleDecode [123, 125, 123, 125] = some 4) ∧
    Pos (SkipToEnd (sampleFS [123, 125, 10, 123, 49, 125, 10])
      { sampleReader with openSize := 7 }) = [[123, 125], [123, 49, 125]].length ∧
    (Next sampleDecode 2 (sampleFS [123, 125, 10, 123, 49, 125, 10])
      (SkipToEnd (sampleFS [123, 125, 10, 123, 49, 125, 10])
        { sampleReader with openSize := 7 })).1 = Outcome.EndOfData :=
  ⟨⟨by decide, by decide, by decide, by decide, by decide, by decide⟩,
    (skip_to_end_then_follow sampleDecode 2 (by decide)
      (sampleFS [123, 125, 10, 123, 49, 125, 10]) { sampleReader with openSize := 7 }
      [[123, 125], [123, 49, 125]] [123, 125, 123, 125] 4 (by decide) (by decide)
      (by decide) (by decide) (by decide)).1,
    (skip_to_end_then_follow sampleDecode 2 (by decide)
      (sampleFS [123, 125, 10, 123, 49, 125, 10]) { sampleReader with openSize := 7 }
      [[123, 125], [123, 49, 125]] [123, 125, 123, 125] 4 (by decide) (by decide)
      (by decide) (by decide) (by decide)).2.1⟩

/-- C5, as stated, fails on the steps of `TestEveReaderFollowRename`: the reader has
read the one line `{}`; the file is renamed away and `Next()` returns end of data; a new
file is created at the path and the line `{1}` written to it. The next `Next()` is the
first to reach the end of the data once the new file exists, and it returns the event of
the new file's line with `Pos() = 1`, not end of data. -/
theorem rename_next_returns_new_line :
    (Next sampleDecode 2 (sampleFS [123, 125, 10]) sampleReader).1 = Outcome.Event 2 ∧
    (Next sampleDecode 2 (Rename (sampleFS [123, 125, 10]))
      (Next sampleDecode 2 (sampleFS [123, 125, 10]) sampleReader).2).1
        = Outcome.EndOfData ∧
    (Next sampleDecode 2
      (WriteLine (NewFileWriter (Rename (sampleFS [123, 125, 10]))).1
        (NewFileWriter (Rename (sampleFS [123, 125, 10]))).2 [123, 49, 125])
      (Next sampleDecode 2 (Rename (sampleFS [123, 125, 10]))
        (Next sampleDecode 2 (sampleFS [123, 125, 10]) sampleReader).2).2).1
        = Outcome.Event 3 ∧
    (Next sampleDecode 2
      (WriteLine (NewFileWriter (Rename (sampleFS [123, 125, 10]))).1
        (NewFileWriter (Rename (sampleFS [123, 125, 10]))).2 [123, 49, 125])
      (Next sampleDecode 2 (Rename (sampleFS [123, 125, 10]))
        (Next sampleDecode 2 (sampleFS [123, 125, 10]) sampleReader).2).2).1
        ≠ Outcome.EndOfData ∧
    Pos (Next sampleDecode 2
      (WriteLine (NewFileWriter (Rename (sampleFS [123, 125, 10]))).1
        (NewFileWriter (Rename (sampleFS [123, 125, 10]))).2 [123, 49, 125])
      (Next sampleDecode 2 (Rename (sampleFS [123, 125, 10]))
        (Next sampleDecode 2 (sampleFS [123, 125, 10]) sampleReader).2).2).2 = 1 := by
  decide

/-- Witness for the amended C5: the reader has read the one line `{}` of the file; the
line written after the truncation, and to the new file after the rename, is `{1}`. -/
theorem rotation_resets_position_witness :
    (0 < 2 ∧
      Intact (sampleFS [123, 125, 10])
        (Next sampleDecode 2 (sampleFS [123, 125, 10]) sampleReader).2 ∧
      Consumed (Next sampleDecode 2 (sampleFS [123, 125, 10]) sampleReader).2 ∧
      1 ≤ Pos (Next sampleDecode 2 (sampleFS [123, 125, 10]) sampleReader).2 ∧
      nl ∉ pending (sampleFS [123, 125, 10])
        (Next sampleDecode 2 (sampleFS [123, 125, 10]) sampleReader).2 ∧
      (Next sampleDecode 2 (sampleFS [123, 125, 10]) sampleReader).2.inode
        < (sampleFS [123, 125, 10]).fresh ∧
      nl ∉ [123, 49, 125] ∧ sampleDecode [123, 49, 125] = some 3) ∧
    (Next sampleDecode 2
      (Truncate (sampleFS [123, 125, 10])
        (Next sampleDecode 2 (sampleFS [123, 125, 10]) sampleReader).2.inode)
      (Next sampleDecode 2 (sampleFS [123, 125, 10]) sampleReader).2).1
        = Outcome.EndOfData ∧
    (Next sampleDecode 2
      (WriteLine (NewFileWriter (Rename (sampleFS [123, 125, 10]))).1
        (NewFileWriter (Rename (sampleFS [123, 125, 10]))).2 [123, 49, 125])
      (Next sampleDecode 2 (sampleFS [123, 125, 10]) sampleReader).2).1
        = Outcome.Event 3 :=
  ⟨⟨by decide, ⟨by decide, by decide⟩, by unfold Consumed; decide, by decide, by decide,
      by decide, by decide, by decide⟩,
    (rotation_resets_position sampleDecode 2 (by decide) (sampleFS [123, 125, 10])
      (Next sampleDecode 2 (sampleFS [123, 125, 10]) sampleReader).2 [123, 49, 125] 3
      ⟨by decide, by decide⟩ (by unfold Consumed; decide) (by decide) (by decide) (by decide)
      (by decide) (by decide)).1.1,
    (rotation_resets_position sampleDecode 2 (by decide) (sampleFS [123, 125, 10])
      (Next sampleDecode 2 (sampleFS [123, 125, 10]) sampleReader).2 [123, 49, 125] 3
      ⟨by decide, by decide⟩ (by unfold Consumed; decide) (by decide) (by decide) (by decide)
      (by decide) (by decide)).2.2.2.1⟩

end EveReader
